import Mathlib

/-!
# Verification of the grob source-mutation engine

This development shallowly embeds the source-mutation core of the `grob`
CLI (`cmd/grob/main.go`): the document model for a single Go source file,
the pretty printer and parser (the repository delegates these to the
external `go/format` and `go/parser` libraries, so they are modelled from
the specification), and the two orchestration functions
`addAppToInternalMain` and `addModuleToAppMain`, whose anchor search is a
faithful translation of the `ast.Inspect` traversals in the source
(a callback returning false prunes the matched subtree but the walk
continues with later siblings).

Source text is modelled at token granularity: a file is a `List Tok`.
Canonical formatting differences (whitespace, alignment) live below the
token level and are abstracted away, as the specification permits.
-/

namespace Grob

/-- A lexical token of the modelled source language. -/
inductive Tok where
  | ident (s : String)
  | str (s : String)
  | lparen | rparen | lbrace | rbrace | lbrack | rbrack
  | comma | colon | dot | define
  | kwImport | kwFunc | kwMap
  | comment (s : String)
deriving DecidableEq

/-- A type expression, as they occur in the anchors the engine matches:
plain identifiers, package-qualified names, and map types
(`ast.Ident`, `ast.SelectorExpr` in type position, `ast.MapType`). -/
inductive Ty where
  | ident (s : String)
  | sel (pkg : String) (name : String)
  | map (key : Ty) (value : Ty)
deriving DecidableEq

/-- An expression node, the variants the engine matches and mutates
(`ast.Ident`, string `ast.BasicLit` with its raw quoted value,
`ast.SelectorExpr`, `ast.CallExpr`, `ast.CompositeLit`). Composite
literal elements are optional-key/value pairs (`ast.KeyValueExpr` when
the key is present). -/
inductive Expr where
  | ident (s : String)
  | str (s : String)
  | sel (x : Expr) (field : String)
  | call (fn : Expr) (args : List Expr)
  | comp (ty : Ty) (elts : List (Option Expr × Expr))

/-- A composite-literal element: optional key and value. -/
abbrev Entry := Option Expr × Expr

/-- A statement in a function body (`ast.ExprStmt`, `ast.AssignStmt`). -/
inductive Stmt where
  | exprStmt (e : Expr)
  | assign (lhs rhs : Expr)

/-- An import spec: optional local name binding plus the raw
quoted import path (`ast.ImportSpec`). -/
structure ImportSpec where
  name : Option String
  path : String
deriving DecidableEq

/-- A top-level declaration: an import declaration (`ast.GenDecl` with
token `IMPORT`) or a function declaration, each with an optional doc
comment bound immediately above it. -/
inductive Decl where
  | imports (doc : Option String) (specs : List ImportSpec)
  | func (doc : Option String) (name : String) (body : List Stmt)

/-- A parsed source file: the ordered sequence of top-level
declarations (`ast.File`). -/
structure File where
  decls : List Decl

/-! ## Printer

Modelled from the spec: the Printer component (`print(document) ->
sourceText`, implemented in the repository by the external `go/format`
library) serializes the document model back to canonical source text,
here a canonical token sequence. -/

/-- Concatenate the token lists of all elements. -/
def catMap (g : α → List Tok) : List α → List Tok
  | [] => []
  | x :: xs => g x ++ catMap g xs

/-- Print a type expression. -/
def printTy : Ty → List Tok
  | .ident s => [.ident s]
  | .sel p n => [.ident p, .dot, .ident n]
  | .map k v => [.kwMap, .lbrack] ++ printTy k ++ [.rbrack] ++ printTy v

mutual
/-- Print an expression in canonical form. -/
def printE : Expr → List Tok
  | .ident s => [.ident s]
  | .str s => [.str s]
  | .sel x f => printE x ++ [.dot, .ident f]
  | .call fn args => printE fn ++ [.lparen] ++ printEList args ++ [.rparen]
  | .comp ty elts => printTy ty ++ [.lbrace] ++ printEntryList elts ++ [.rbrace]

/-- Print a comma-separated argument list. -/
def printEList : List Expr → List Tok
  | [] => []
  | [e] => printE e
  | e :: es => printE e ++ Tok.comma :: printEList es

/-- Print one composite-literal element. -/
def printEntry : Option Expr × Expr → List Tok
  | (none, v) => printE v
  | (some k, v) => printE k ++ Tok.colon :: printE v

/-- Print a comma-separated composite-literal element list. -/
def printEntryList : List (Option Expr × Expr) → List Tok
  | [] => []
  | [en] => printEntry en
  | en :: ens => printEntry en ++ Tok.comma :: printEntryList ens
end

/-- Print a statement. -/
def printStmt : Stmt → List Tok
  | .exprStmt e => printE e
  | .assign l r => printE l ++ Tok.define :: printE r

/-- Print an import spec. -/
def printSpec : ImportSpec → List Tok
  | ⟨some n, p⟩ => [.ident n, .str p]
  | ⟨none, p⟩ => [.str p]

/-- Print an optional doc comment. -/
def printDocComment : Option String → List Tok
  | some c => [.comment c]
  | none => []

/-- Print a top-level declaration, its doc comment immediately above it. -/
def printDecl : Decl → List Tok
  | .imports doc specs =>
      printDocComment doc ++ [.kwImport, .lparen] ++ catMap printSpec specs ++ [.rparen]
  | .func doc name body =>
      printDocComment doc ++ [.kwFunc, .ident name, .lparen, .rparen, .lbrace]
        ++ catMap printStmt body ++ [.rbrace]

/-- Print a whole file. -/
def printFile (f : File) : List Tok := catMap printDecl f.decls

/-! ## Parser

Modelled from the spec: the Parser component (`parse(sourceText) ->
Document | ParseError`, implemented in the repository by the external
`go/parser` library) converts source text into the document model and
fails with a `ParseError` carrying a position and message on malformed
input. -/

/-- A parse failure with a position and a message. Inside the recursive
descent functions the `pos` field holds the number of tokens remaining at
the failure site; the top-level `parse` converts it into an offset from
the start of the input. -/
structure ParseError where
  pos : Nat
  msg : String
deriving DecidableEq

/-- Parse a type expression. -/
def parseTy : (toks : List Tok) →
    Except ParseError (Ty × { rest : List Tok // rest.length < toks.length })
  | .ident s :: .dot :: .ident n :: rest =>
      .ok (.sel s n, ⟨rest, by simp only [List.length_cons]; omega⟩)
  | .ident s :: rest => .ok (.ident s, ⟨rest, by simp only [List.length_cons]; omega⟩)
  | .kwMap :: .lbrack :: rest =>
      match parseTy rest with
      | .error e => .error e
      | .ok (k, ⟨.rbrack :: r2, h2⟩) =>
          match parseTy r2 with
          | .error e => .error e
          | .ok (v, ⟨r3, h3⟩) =>
              .ok (.map k v, ⟨r3, by simp only [List.length_cons] at h2 ⊢; omega⟩)
      | .ok (_, ⟨other, _⟩) => .error ⟨other.length, "expected closing bracket in map type"⟩
  | toks => .error ⟨toks.length, "expected a type"⟩
termination_by toks => toks.length
decreasing_by all_goals ((try simp only [List.length_cons] at *); omega)

/-- Convert an expression already parsed to a composite-literal type, as
the real parser does when a brace follows an operand. -/
def exprToTy : Expr → Option Ty
  | .ident s => some (.ident s)
  | .sel (.ident p) n => some (.sel p n)
  | _ => none

mutual

/-- Parse a primary operand: identifier, string literal, or a map-typed
composite literal. -/
def parsePrimary : (toks : List Tok) →
    Except ParseError (Expr × { rest : List Tok // rest.length < toks.length })
  | .ident s :: rest => .ok (.ident s, ⟨rest, by simp only [List.length_cons]; omega⟩)
  | .str s :: rest => .ok (.str s, ⟨rest, by simp only [List.length_cons]; omega⟩)
  | .kwMap :: rest0 =>
      match parseTy (.kwMap :: rest0) with
      | .error e => .error e
      | .ok (ty, ⟨.lbrace :: r2, h2⟩) =>
          match parseEntryList r2 with
          | .error e => .error e
          | .ok (elts, ⟨r3, h3⟩) =>
              .ok (.comp ty elts, ⟨r3, by simp only [List.length_cons] at h2 ⊢; omega⟩)
      | .ok (_, ⟨other, _⟩) =>
          .error ⟨other.length, "expected composite literal after map type"⟩
  | toks => .error ⟨toks.length, "expected an expression"⟩
termination_by toks => 4 * toks.length
decreasing_by all_goals ((try simp only [List.length_cons] at *); omega)

/-- Parse a full expression: a primary operand followed by postfix
selectors, call argument lists, and composite-literal braces. -/
def parseExpr (toks : List Tok) :
    Except ParseError (Expr × { rest : List Tok // rest.length < toks.length }) :=
  match parsePrimary toks with
  | .error e => .error e
  | .ok (b, ⟨t1, h1⟩) =>
    match parsePostfix b t1 with
    | .error e => .error e
    | .ok (e, ⟨t2, h2⟩) => .ok (e, ⟨t2, Nat.lt_of_le_of_lt h2 h1⟩)
termination_by 4 * toks.length + 1
decreasing_by all_goals ((try simp only [List.length_cons] at *); omega)

/-- Parse the postfix continuation of an expression: `.field`, `(args)`,
or `{elements}` repeated, stopping at the first token that cannot extend
the expression. -/
def parsePostfix (acc : Expr) : (toks : List Tok) →
    Except ParseError (Expr × { rest : List Tok // rest.length ≤ toks.length })
  | .dot :: .ident f :: rest =>
      match parsePostfix (.sel acc f) rest with
      | .error e => .error e
      | .ok (e, ⟨t2, h2⟩) =>
          .ok (e, ⟨t2, by simp only [List.length_cons]; omega⟩)
  | .dot :: rest => .error ⟨rest.length + 1, "expected identifier after dot"⟩
  | .lparen :: rest =>
      match parseExprList rest with
      | .error e => .error e
      | .ok (as, ⟨t1, h1⟩) =>
          match parsePostfix (.call acc as) t1 with
          | .error e => .error e
          | .ok (e, ⟨t2, h2⟩) =>
              .ok (e, ⟨t2, by simp only [List.length_cons]; omega⟩)
  | .lbrace :: rest =>
      match exprToTy acc with
      | some ty =>
          match parseEntryList rest with
          | .error e => .error e
          | .ok (elts, ⟨t1, h1⟩) =>
              match parsePostfix (.comp ty elts) t1 with
              | .error e => .error e
              | .ok (e, ⟨t2, h2⟩) =>
                  .ok (e, ⟨t2, by simp only [List.length_cons]; omega⟩)
      | none => .error ⟨rest.length + 1, "invalid composite literal type"⟩
  | rest => .ok (acc, ⟨rest, Nat.le_refl _⟩)
termination_by toks => 4 * toks.length
decreasing_by all_goals ((try simp only [List.length_cons] at *); omega)

/-- Parse a comma-separated argument list terminated by a closing
parenthesis (the closer is consumed). -/
def parseExprList : (toks : List Tok) →
    Except ParseError (List Expr × { rest : List Tok // rest.length < toks.length })
  | .rparen :: rest => .ok ([], ⟨rest, by simp only [List.length_cons]; omega⟩)
  | toks =>
    match parseExpr toks with
    | .error e => .error e
    | .ok (e, ⟨.comma :: r2, h2⟩) =>
        match parseExprList r2 with
        | .error er => .error er
        | .ok (es, ⟨t3, h3⟩) =>
            .ok (e :: es, ⟨t3, by simp only [List.length_cons] at h2; omega⟩)
    | .ok (e, ⟨.rparen :: r2, h2⟩) =>
        .ok ([e], ⟨r2, by simp only [List.length_cons] at h2; omega⟩)
    | .ok (_, ⟨other, _⟩) =>
        .error ⟨other.length, "expected comma or closing paren in argument list"⟩
termination_by toks => 4 * toks.length + 2
decreasing_by all_goals ((try simp only [List.length_cons] at *); omega)

/-- Parse one composite-literal element: an expression, optionally
followed by a colon and a value expression. -/
def parseEntry (toks : List Tok) :
    Except ParseError ((Option Expr × Expr) × { rest : List Tok // rest.length < toks.length }) :=
  match parseExpr toks with
  | .error e => .error e
  | .ok (e1, ⟨.colon :: r2, h2⟩) =>
      match parseExpr r2 with
      | .error e => .error e
      | .ok (e2, ⟨t3, h3⟩) =>
          .ok ((some e1, e2), ⟨t3, by simp only [List.length_cons] at h2; omega⟩)
  | .ok (e1, ⟨rest, h⟩) => .ok ((none, e1), ⟨rest, h⟩)
termination_by 4 * toks.length + 2
decreasing_by all_goals ((try simp only [List.length_cons] at *); omega)

/-- Parse a comma-separated composite-literal element list terminated by
a closing brace (the closer is consumed). -/
def parseEntryList : (toks : List Tok) →
    Except ParseError (List (Option Expr × Expr) × { rest : List Tok // rest.length < toks.length })
  | .rbrace :: rest => .ok ([], ⟨rest, by simp only [List.length_cons]; omega⟩)
  | toks =>
    match parseEntry toks with
    | .error e => .error e
    | .ok (en, ⟨.comma :: r2, h2⟩) =>
        match parseEntryList r2 with
        | .error er => .error er
        | .ok (ens, ⟨t3, h3⟩) =>
            .ok (en :: ens, ⟨t3, by simp only [List.length_cons] at h2; omega⟩)
    | .ok (en, ⟨.rbrace :: r2, h2⟩) =>
        .ok ([en], ⟨r2, by simp only [List.length_cons] at h2; omega⟩)
    | .ok (_, ⟨other, _⟩) =>
        .error ⟨other.length, "expected comma or closing brace in literal"⟩
termination_by toks => 4 * toks.length + 3
decreasing_by all_goals ((try simp only [List.length_cons] at *); omega)

end

/-- Parse one statement: an expression statement or an assignment. -/
def parseStmt (toks : List Tok) :
    Except ParseError (Stmt × { rest : List Tok // rest.length < toks.length }) :=
  match parseExpr toks with
  | .error e => .error e
  | .ok (e1, ⟨.define :: r2, h2⟩) =>
      match parseExpr r2 with
      | .error e => .error e
      | .ok (e2, ⟨t3, h3⟩) =>
          .ok (.assign e1 e2, ⟨t3, by simp only [List.length_cons] at h2; omega⟩)
  | .ok (e1, ⟨rest, h⟩) => .ok (.exprStmt e1, ⟨rest, h⟩)

/-- Parse statements until the closing brace of a function body (the
brace is consumed). -/
def parseStmts : (toks : List Tok) →
    Except ParseError (List Stmt × { rest : List Tok // rest.length < toks.length })
  | .rbrace :: rest => .ok ([], ⟨rest, by simp only [List.length_cons]; omega⟩)
  | toks =>
    match parseStmt toks with
    | .error e => .error e
    | .ok (st, ⟨t1, h1⟩) =>
        match parseStmts t1 with
        | .error e => .error e
        | .ok (sts, ⟨t2, h2⟩) => .ok (st :: sts, ⟨t2, by omega⟩)
termination_by toks => toks.length
decreasing_by all_goals omega

/-- Parse import specs until the closing parenthesis (consumed). -/
def parseSpecs : (toks : List Tok) →
    Except ParseError (List ImportSpec × { rest : List Tok // rest.length < toks.length })
  | .rparen :: rest => .ok ([], ⟨rest, by simp only [List.length_cons]; omega⟩)
  | .ident n :: .str p :: rest =>
      match parseSpecs rest with
      | .error e => .error e
      | .ok (ss, ⟨t, h⟩) =>
          .ok (⟨some n, p⟩ :: ss, ⟨t, by simp only [List.length_cons]; omega⟩)
  | .str p :: rest =>
      match parseSpecs rest with
      | .error e => .error e
      | .ok (ss, ⟨t, h⟩) =>
          .ok (⟨none, p⟩ :: ss, ⟨t, by simp only [List.length_cons]; omega⟩)
  | toks => .error ⟨toks.length, "expected import spec or closing paren"⟩
termination_by toks => toks.length
decreasing_by all_goals ((try simp only [List.length_cons] at *); omega)

/-- Parse the body of a declaration, given its optional doc comment. -/
def parseDeclCore (doc : Option String) :
    (toks : List Tok) →
    Except ParseError (Decl × { rest : List Tok // rest.length < toks.length })
  | .kwImport :: .lparen :: rest =>
      match parseSpecs rest with
      | .error e => .error e
      | .ok (ss, ⟨t, h⟩) =>
          .ok (.imports doc ss, ⟨t, by simp only [List.length_cons]; omega⟩)
  | .kwFunc :: .ident n :: .lparen :: .rparen :: .lbrace :: rest =>
      match parseStmts rest with
      | .error e => .error e
      | .ok (body, ⟨t, h⟩) =>
          .ok (.func doc n body, ⟨t, by simp only [List.length_cons]; omega⟩)
  | toks => .error ⟨toks.length, "expected a declaration"⟩

/-- Parse one top-level declaration with its optional doc comment. -/
def parseDecl : (toks : List Tok) →
    Except ParseError (Decl × { rest : List Tok // rest.length < toks.length })
  | .comment c :: rest =>
      match parseDeclCore (some c) rest with
      | .error e => .error e
      | .ok (d, ⟨t, h⟩) => .ok (d, ⟨t, by simp only [List.length_cons]; omega⟩)
  | toks => parseDeclCore none toks

/-- Parse the whole sequence of top-level declarations. -/
def parseDecls : (toks : List Tok) →
    Except ParseError (List Decl × { rest : List Tok // rest.length ≤ toks.length })
  | [] => .ok ([], ⟨[], Nat.le_refl _⟩)
  | toks =>
    match parseDecl toks with
    | .error e => .error e
    | .ok (d, ⟨t1, h1⟩) =>
        match parseDecls t1 with
        | .error e => .error e
        | .ok (ds, ⟨t2, h2⟩) => .ok (d :: ds, ⟨t2, by omega⟩)
termination_by toks => toks.length
decreasing_by all_goals omega

/-- Parse a whole source file. On failure the reported error carries the
offset of the failure from the start of the input, and a message. -/
def parse (toks : List Tok) : Except ParseError File :=
  match parseDecls toks with
  | .error e => .error ⟨toks.length - e.pos, e.msg⟩
  | .ok (ds, ⟨[], _⟩) => .ok ⟨ds⟩
  | .ok (_, ⟨t, _⟩) => .error ⟨toks.length - t.length, "unexpected trailing tokens"⟩

/-! ## Parse-result views without consumption bounds

The recursive descent functions return the unconsumed tail bundled with
a length bound used only for termination. The `...V` wrappers below
forget that bound; all reasoning happens at this level. -/

/-- Forget the consumption bound of a parse result. -/
def pstrip {α : Type} {P : List Tok → Prop}
    (r : Except ParseError (α × { rest : List Tok // P rest })) :
    Except ParseError (α × List Tok) :=
  match r with
  | .error e => .error e
  | .ok (a, t) => .ok (a, t.val)

/-- Bound-free view of `parseTy`. -/
def parseTyV (toks : List Tok) : Except ParseError (Ty × List Tok) :=
  pstrip (parseTy toks)

/-- Bound-free view of `parsePrimary`. -/
def parsePrimaryV (toks : List Tok) : Except ParseError (Expr × List Tok) :=
  pstrip (parsePrimary toks)

/-- Bound-free view of `parseExpr`. -/
def parseExprV (toks : List Tok) : Except ParseError (Expr × List Tok) :=
  pstrip (parseExpr toks)

/-- Bound-free view of `parsePostfix`. -/
def parsePostfixV (acc : Expr) (toks : List Tok) : Except ParseError (Expr × List Tok) :=
  pstrip (parsePostfix acc toks)

/-- Bound-free view of `parseExprList`. -/
def parseExprListV (toks : List Tok) : Except ParseError (List Expr × List Tok) :=
  pstrip (parseExprList toks)

/-- Bound-free view of `parseEntry`. -/
def parseEntryV (toks : List Tok) : Except ParseError ((Option Expr × Expr) × List Tok) :=
  pstrip (parseEntry toks)

/-- Bound-free view of `parseEntryList`. -/
def parseEntryListV (toks : List Tok) :
    Except ParseError (List (Option Expr × Expr) × List Tok) :=
  pstrip (parseEntryList toks)

/-- Bound-free view of `parseStmt`. -/
def parseStmtV (toks : List Tok) : Except ParseError (Stmt × List Tok) :=
  pstrip (parseStmt toks)

/-- Bound-free view of `parseStmts`. -/
def parseStmtsV (toks : List Tok) : Except ParseError (List Stmt × List Tok) :=
  pstrip (parseStmts toks)

/-- Bound-free view of `parseSpecs`. -/
def parseSpecsV (toks : List Tok) : Except ParseError (List ImportSpec × List Tok) :=
  pstrip (parseSpecs toks)

/-- Bound-free view of `parseDeclCore`. -/
def parseDeclCoreV (doc : Option String) (toks : List Tok) :
    Except ParseError (Decl × List Tok) :=
  pstrip (parseDeclCore doc toks)

/-- Bound-free view of `parseDecl`. -/
def parseDeclV (toks : List Tok) : Except ParseError (Decl × List Tok) :=
  pstrip (parseDecl toks)

/-- Bound-free view of `parseDecls`. -/
def parseDeclsV (toks : List Tok) : Except ParseError (List Decl × List Tok) :=
  pstrip (parseDecls toks)

/-! ## Stop and start guards

Shape predicates on the tokens that follow a printed fragment; they
select the parse arm taken there. -/

/-- Tokens that may follow a printed type without extending it. -/
def tyStop : List Tok → Bool
  | .dot :: .ident _ :: _ => false
  | _ => true

/-- Tokens that may follow a printed expression without extending it
with a postfix selector, call, or composite literal. -/
def postStop : List Tok → Bool
  | .dot :: _ => false
  | .lparen :: _ => false
  | .lbrace :: _ => false
  | _ => true

/-- Tokens that can start a printed expression. -/
def exprStart : Tok → Bool
  | .ident _ => true
  | .str _ => true
  | .kwMap => true
  | _ => false

/-! ## Step equations of the parsers -/

theorem parseTyV_sel (s n : String) (rest : List Tok) :
    parseTyV (.ident s :: .dot :: .ident n :: rest) = .ok (.sel s n, rest) := by
  rw [parseTyV, parseTy.eq_def]; rfl

theorem parseTyV_ident (s : String) (rest : List Tok) (h : tyStop rest = true) :
    parseTyV (.ident s :: rest) = .ok (.ident s, rest) := by
  rw [parseTyV, parseTy.eq_def]
  cases rest with
  | nil => rfl
  | cons t rs =>
      cases t
      case dot =>
          cases rs with
          | nil => rfl
          | cons t2 rs2 =>
              cases t2
              case ident => simp [tyStop] at h
              all_goals rfl
      all_goals rfl

theorem parseTyV_map_step (ts : List Tok) :
    parseTyV (.kwMap :: .lbrack :: ts) =
      match parseTyV ts with
      | .error e => .error e
      | .ok (k, .rbrack :: r2) =>
          (match parseTyV r2 with
           | .error e => .error e
           | .ok (v, r3) => .ok (.map k v, r3))
      | .ok (_, other) =>
          .error ⟨other.length, "expected closing bracket in map type"⟩ := by
  rw [parseTyV, parseTy.eq_def]
  dsimp only
  cases hpk : parseTy ts with
  | error e => rw [parseTyV, hpk]; rfl
  | ok p =>
      obtain ⟨k, ⟨r2v, h2⟩⟩ := p
      rw [parseTyV, hpk]
      cases r2v with
      | nil => rfl
      | cons t2 rs2 =>
          cases t2
          case rbrack =>
              dsimp only [pstrip]
              cases hpv : parseTy rs2 with
              | error e => rw [parseTyV, hpv]; rfl
              | ok q =>
                  obtain ⟨v, ⟨r3v, h3⟩⟩ := q
                  rw [parseTyV, hpv]; rfl
          all_goals rfl

theorem parsePrimaryV_ident (s : String) (rest : List Tok) :
    parsePrimaryV (.ident s :: rest) = .ok (.ident s, rest) := by
  rw [parsePrimaryV, parsePrimary.eq_def]; rfl

theorem parsePrimaryV_str (s : String) (rest : List Tok) :
    parsePrimaryV (.str s :: rest) = .ok (.str s, rest) := by
  rw [parsePrimaryV, parsePrimary.eq_def]; rfl

theorem parsePrimaryV_map_step (rest0 : List Tok) :
    parsePrimaryV (.kwMap :: rest0) =
      match parseTyV (.kwMap :: rest0) with
      | .error e => .error e
      | .ok (ty, .lbrace :: r2) =>
          (match parseEntryListV r2 with
           | .error e => .error e
           | .ok (elts, r3) => .ok (.comp ty elts, r3))
      | .ok (_, other) =>
          .error ⟨other.length, "expected composite literal after map type"⟩ := by
  rw [parsePrimaryV, parsePrimary.eq_def]
  dsimp only
  cases hpt : parseTy (Tok.kwMap :: rest0) with
  | error e => rw [parseTyV, hpt]; rfl
  | ok p =>
      obtain ⟨ty, ⟨r1v, h1⟩⟩ := p
      rw [parseTyV, hpt]
      cases r1v with
      | nil => rfl
      | cons t2 rs2 =>
          cases t2
          case lbrace =>
              dsimp only [pstrip]
              cases hpe : parseEntryList rs2 with
              | error e => rw [parseEntryListV, hpe]; rfl
              | ok q =>
                  obtain ⟨elts, ⟨r3v, h3⟩⟩ := q
                  rw [parseEntryListV, hpe]; rfl
          all_goals rfl

theorem parseExprV_step (toks : List Tok) :
    parseExprV toks =
      match parsePrimaryV toks with
      | .error e => .error e
      | .ok (b, t1) => parsePostfixV b t1 := by
  rw [parseExprV, parseExpr.eq_def]
  cases hp : parsePrimary toks with
  | error e => rw [parsePrimaryV, hp]; rfl
  | ok p =>
      obtain ⟨b, ⟨t1, h1⟩⟩ := p
      rw [parsePrimaryV, hp]
      dsimp only [pstrip]
      cases hq : parsePostfix b t1 with
      | error e => rw [parsePostfixV, hq]; rfl
      | ok q =>
          obtain ⟨e2, ⟨t2, h2⟩⟩ := q
          rw [parsePostfixV, hq]; rfl

theorem parsePostfixV_dot (acc : Expr) (f : String) (rest : List Tok) :
    parsePostfixV acc (.dot :: .ident f :: rest) = parsePostfixV (.sel acc f) rest := by
  rw [parsePostfixV, parsePostfix.eq_def]
  dsimp only
  cases hq : parsePostfix (.sel acc f) rest with
  | error e => rw [parsePostfixV, hq]; rfl
  | ok q =>
      obtain ⟨e2, ⟨t2, h2⟩⟩ := q
      rw [parsePostfixV, hq]; rfl

theorem parsePostfixV_lparen (acc : Expr) (rest : List Tok) :
    parsePostfixV acc (.lparen :: rest) =
      match parseExprListV rest with
      | .error e => .error e
      | .ok (as, t1) => parsePostfixV (.call acc as) t1 := by
  rw [parsePostfixV, parsePostfix.eq_def]
  dsimp only
  cases hl : parseExprList rest with
  | error e => rw [parseExprListV, hl]; rfl
  | ok p =>
      obtain ⟨as, ⟨t1, h1⟩⟩ := p
      rw [parseExprListV, hl]
      dsimp only [pstrip]
      cases hq : parsePostfix (.call acc as) t1 with
      | error e => rw [parsePostfixV, hq]; rfl
      | ok q =>
          obtain ⟨e2, ⟨t2, h2⟩⟩ := q
          rw [parsePostfixV, hq]; rfl

theorem parsePostfixV_lbrace (acc : Expr) (rest : List Tok) :
    parsePostfixV acc (.lbrace :: rest) =
      match exprToTy acc with
      | none => .error ⟨rest.length + 1, "invalid composite literal type"⟩
      | some ty =>
          match parseEntryListV rest with
          | .error e => .error e
          | .ok (elts, t1) => parsePostfixV (.comp ty elts) t1 := by
  rw [parsePostfixV, parsePostfix.eq_def]
  dsimp only
  cases hty : exprToTy acc with
  | none => rfl
  | some ty =>
      dsimp only
      cases hl : parseEntryList rest with
      | error e => rw [parseEntryListV, hl]; rfl
      | ok p =>
          obtain ⟨elts, ⟨t1, h1⟩⟩ := p
          rw [parseEntryListV, hl]
          dsimp only [pstrip]
          cases hq : parsePostfix (.comp ty elts) t1 with
          | error e => rw [parsePostfixV, hq]; rfl
          | ok q =>
              obtain ⟨e2, ⟨t2, h2⟩⟩ := q
              rw [parsePostfixV, hq]; rfl

theorem parsePostfixV_stop (acc : Expr) (toks : List Tok) (h : postStop toks = true) :
    parsePostfixV acc toks = .ok (acc, toks) := by
  rw [parsePostfixV, parsePostfix.eq_def]
  cases toks with
  | nil => rfl
  | cons t ts =>
      cases t
      case dot => simp [postStop] at h
      case lparen => simp [postStop] at h
      case lbrace => simp [postStop] at h
      all_goals rfl

/-- Tokens that can start a printed top-level declaration. -/
def declStart : Tok → Bool
  | .comment _ => true
  | .kwImport => true
  | .kwFunc => true
  | _ => false

theorem parseExprListV_rparen (rest : List Tok) :
    parseExprListV (.rparen :: rest) = .ok ([], rest) := by
  rw [parseExprListV, parseExprList.eq_def]; rfl

theorem parseExprListV_step (t : Tok) (ts : List Tok) (h : exprStart t = true) :
    parseExprListV (t :: ts) =
      match parseExprV (t :: ts) with
      | .error e => .error e
      | .ok (e, .comma :: r2) =>
          (match parseExprListV r2 with
           | .error er => .error er
           | .ok (es, t3) => .ok (e :: es, t3))
      | .ok (e, .rparen :: r2) => .ok ([e], r2)
      | .ok (_, other) =>
          .error ⟨other.length, "expected comma or closing paren in argument list"⟩ := by
  rw [parseExprListV, parseExprList.eq_def]
  cases t
  case ident s =>
      dsimp only
      cases hpe : parseExpr (Tok.ident s :: ts) with
      | error e => rw [parseExprV, hpe]; rfl
      | ok p =>
          obtain ⟨e, ⟨r1v, h1⟩⟩ := p
          rw [parseExprV, hpe]
          cases r1v with
          | nil => rfl
          | cons t2 rs2 =>
              cases t2
              case comma =>
                  dsimp only [pstrip]
                  cases hin : parseExprList rs2 with
                  | error er => rw [parseExprListV, hin]; rfl
                  | ok q =>
                      obtain ⟨es, ⟨t3, h3⟩⟩ := q
                      rw [parseExprListV, hin]; rfl
              all_goals rfl
  case str s =>
      dsimp only
      cases hpe : parseExpr (Tok.str s :: ts) with
      | error e => rw [parseExprV, hpe]; rfl
      | ok p =>
          obtain ⟨e, ⟨r1v, h1⟩⟩ := p
          rw [parseExprV, hpe]
          cases r1v with
          | nil => rfl
          | cons t2 rs2 =>
              cases t2
              case comma =>
                  dsimp only [pstrip]
                  cases hin : parseExprList rs2 with
                  | error er => rw [parseExprListV, hin]; rfl
                  | ok q =>
                      obtain ⟨es, ⟨t3, h3⟩⟩ := q
                      rw [parseExprListV, hin]; rfl
              all_goals rfl
  case kwMap =>
      dsimp only
      cases hpe : parseExpr (Tok.kwMap :: ts) with
      | error e => rw [parseExprV, hpe]; rfl
      | ok p =>
          obtain ⟨e, ⟨r1v, h1⟩⟩ := p
          rw [parseExprV, hpe]
          cases r1v with
          | nil => rfl
          | cons t2 rs2 =>
              cases t2
              case comma =>
                  dsimp only [pstrip]
                  cases hin : parseExprList rs2 with
                  | error er => rw [parseExprListV, hin]; rfl
                  | ok q =>
                      obtain ⟨es, ⟨t3, h3⟩⟩ := q
                      rw [parseExprListV, hin]; rfl
              all_goals rfl
  all_goals simp [exprStart] at h

theorem parseEntryV_step (toks : List Tok) :
    parseEntryV toks =
      match parseExprV toks with
      | .error e => .error e
      | .ok (e1, .colon :: r2) =>
          (match parseExprV r2 with
           | .error e => .error e
           | .ok (e2, t3) => .ok ((some e1, e2), t3))
      | .ok (e1, rest) => .ok ((none, e1), rest) := by
  rw [parseEntryV]
  unfold parseEntry
  cases hpe : parseExpr toks with
  | error e => rw [parseExprV, hpe]; rfl
  | ok p =>
      obtain ⟨e1, ⟨r1v, h1⟩⟩ := p
      rw [parseExprV, hpe]
      cases r1v with
      | nil => rfl
      | cons t2 rs2 =>
          cases t2
          case colon =>
              dsimp only [pstrip]
              cases hv : parseExpr rs2 with
              | error e => rw [parseExprV, hv]; rfl
              | ok q =>
                  obtain ⟨e2, ⟨t3, h3⟩⟩ := q
                  rw [parseExprV, hv]; rfl
          all_goals rfl

theorem parseEntryListV_rbrace (rest : List Tok) :
    parseEntryListV (.rbrace :: rest) = .ok ([], rest) := by
  rw [parseEntryListV, parseEntryList.eq_def]; rfl

theorem parseEntryListV_step (t : Tok) (ts : List Tok) (h : exprStart t = true) :
    parseEntryListV (t :: ts) =
      match parseEntryV (t :: ts) with
      | .error e => .error e
      | .ok (en, .comma :: r2) =>
          (match parseEntryListV r2 with
           | .error er => .error er
           | .ok (ens, t3) => .ok (en :: ens, t3))
      | .ok (en, .rbrace :: r2) => .ok ([en], r2)
      | .ok (_, other) =>
          .error ⟨other.length, "expected comma or closing brace in literal"⟩ := by
  rw [parseEntryListV, parseEntryList.eq_def]
  cases t
  case ident s =>
      dsimp only
      cases hpe : parseEntry (Tok.ident s :: ts) with
      | error e => rw [parseEntryV, hpe]; rfl
      | ok p =>
          obtain ⟨en, ⟨r1v, h1⟩⟩ := p
          rw [parseEntryV, hpe]
          cases r1v with
          | nil => rfl
          | cons t2 rs2 =>
              cases t2
              case comma =>
                  dsimp only [pstrip]
                  cases hin : parseEntryList rs2 with
                  | error er => rw [parseEntryListV, hin]; rfl
                  | ok q =>
                      obtain ⟨ens, ⟨t3, h3⟩⟩ := q
                      rw [parseEntryListV, hin]; rfl
              all_goals rfl
  case str s =>
      dsimp only
      cases hpe : parseEntry (Tok.str s :: ts) with
      | error e => rw [parseEntryV, hpe]; rfl
      | ok p =>
          obtain ⟨en, ⟨r1v, h1⟩⟩ := p
          rw [parseEntryV, hpe]
          cases r1v with
          | nil => rfl
          | cons t2 rs2 =>
              cases t2
              case comma =>
                  dsimp only [pstrip]
                  cases hin : parseEntryList rs2 with
                  | error er => rw [parseEntryListV, hin]; rfl
                  | ok q =>
                      obtain ⟨ens, ⟨t3, h3⟩⟩ := q
                      rw [parseEntryListV, hin]; rfl
              all_goals rfl
  case kwMap =>
      dsimp only
      cases hpe : parseEntry (Tok.kwMap :: ts) with
      | error e => rw [parseEntryV, hpe]; rfl
      | ok p =>
          obtain ⟨en, ⟨r1v, h1⟩⟩ := p
          rw [parseEntryV, hpe]
          cases r1v with
          | nil => rfl
          | cons t2 rs2 =>
              cases t2
              case comma =>
                  dsimp only [pstrip]
                  cases hin : parseEntryList rs2 with
                  | error er => rw [parseEntryListV, hin]; rfl
                  | ok q =>
                      obtain ⟨ens, ⟨t3, h3⟩⟩ := q
                      rw [parseEntryListV, hin]; rfl
              all_goals rfl
  all_goals simp [exprStart] at h

theorem parseStmtV_step (toks : List Tok) :
    parseStmtV toks =
      match parseExprV toks with
      | .error e => .error e
      | .ok (e1, .define :: r2) =>
          (match parseExprV r2 with
           | .error e => .error e
           | .ok (e2, t3) => .ok (.assign e1 e2, t3))
      | .ok (e1, rest) => .ok (.exprStmt e1, rest) := by
  rw [parseStmtV]
  unfold parseStmt
  cases hpe : parseExpr toks with
  | error e => rw [parseExprV, hpe]; rfl
  | ok p =>
      obtain ⟨e1, ⟨r1v, h1⟩⟩ := p
      rw [parseExprV, hpe]
      cases r1v with
      | nil => rfl
      | cons t2 rs2 =>
          cases t2
          case define =>
              dsimp only [pstrip]
              cases hv : parseExpr rs2 with
              | error e => rw [parseExprV, hv]; rfl
              | ok q =>
                  obtain ⟨e2, ⟨t3, h3⟩⟩ := q
                  rw [parseExprV, hv]; rfl
          all_goals rfl

theorem parseStmtsV_rbrace (rest : List Tok) :
    parseStmtsV (.rbrace :: rest) = .ok ([], rest) := by
  rw [parseStmtsV, parseStmts.eq_def]; rfl

theorem parseStmtsV_step (t : Tok) (ts : List Tok) (h : exprStart t = true) :
    parseStmtsV (t :: ts) =
      match parseStmtV (t :: ts) with
      | .error e => .error e
      | .ok (st, t1) =>
          match parseStmtsV t1 with
          | .error e => .error e
          | .ok (sts, t2) => .ok (st :: sts, t2) := by
  rw [parseStmtsV, parseStmts.eq_def]
  cases t
  case ident s =>
      dsimp only
      cases hps : parseStmt (Tok.ident s :: ts) with
      | error e => rw [parseStmtV, hps]; rfl
      | ok p =>
          obtain ⟨st, ⟨t1, h1⟩⟩ := p
          rw [parseStmtV, hps]
          dsimp only [pstrip]
          cases hss : parseStmts t1 with
          | error e => rw [parseStmtsV, hss]; rfl
          | ok q =>
              obtain ⟨sts, ⟨t2, h2⟩⟩ := q
              rw [parseStmtsV, hss]; rfl
  case str s =>
      dsimp only
      cases hps : parseStmt (Tok.str s :: ts) with
      | error e => rw [parseStmtV, hps]; rfl
      | ok p =>
          obtain ⟨st, ⟨t1, h1⟩⟩ := p
          rw [parseStmtV, hps]
          dsimp only [pstrip]
          cases hss : parseStmts t1 with
          | error e => rw [parseStmtsV, hss]; rfl
          | ok q =>
              obtain ⟨sts, ⟨t2, h2⟩⟩ := q
              rw [parseStmtsV, hss]; rfl
  case kwMap =>
      dsimp only
      cases hps : parseStmt (Tok.kwMap :: ts) with
      | error e => rw [parseStmtV, hps]; rfl
      | ok p =>
          obtain ⟨st, ⟨t1, h1⟩⟩ := p
          rw [parseStmtV, hps]
          dsimp only [pstrip]
          cases hss : parseStmts t1 with
          | error e => rw [parseStmtsV, hss]; rfl
          | ok q =>
              obtain ⟨sts, ⟨t2, h2⟩⟩ := q
              rw [parseStmtsV, hss]; rfl
  all_goals simp [exprStart] at h

theorem parseSpecsV_rparen (rest : List Tok) :
    parseSpecsV (.rparen :: rest) = .ok ([], rest) := by
  rw [parseSpecsV, parseSpecs.eq_def]; rfl

theorem parseSpecsV_named (n p : String) (rest : List Tok) :
    parseSpecsV (.ident n :: .str p :: rest) =
      match parseSpecsV rest with
      | .error e => .error e
      | .ok (ss, t) => .ok (⟨some n, p⟩ :: ss, t) := by
  rw [parseSpecsV, parseSpecs.eq_def]
  dsimp only
  cases hs : parseSpecs rest with
  | error e => rw [parseSpecsV, hs]; rfl
  | ok p2 =>
      obtain ⟨ss, ⟨t, ht⟩⟩ := p2
      rw [parseSpecsV, hs]; rfl

theorem parseSpecsV_anon (p : String) (rest : List Tok) :
    parseSpecsV (.str p :: rest) =
      match parseSpecsV rest with
      | .error e => .error e
      | .ok (ss, t) => .ok (⟨none, p⟩ :: ss, t) := by
  rw [parseSpecsV, parseSpecs.eq_def]
  dsimp only
  cases hs : parseSpecs rest with
  | error e => rw [parseSpecsV, hs]; rfl
  | ok p2 =>
      obtain ⟨ss, ⟨t, ht⟩⟩ := p2
      rw [parseSpecsV, hs]; rfl

theorem parseDeclCoreV_import (doc : Option String) (rest : List Tok) :
    parseDeclCoreV doc (.kwImport :: .lparen :: rest) =
      match parseSpecsV rest with
      | .error e => .error e
      | .ok (ss, t) => .ok (.imports doc ss, t) := by
  rw [parseDeclCoreV]
  unfold parseDeclCore
  dsimp only
  cases hs : parseSpecs rest with
  | error e => rw [parseSpecsV, hs]; rfl
  | ok p2 =>
      obtain ⟨ss, ⟨t, ht⟩⟩ := p2
      rw [parseSpecsV, hs]; rfl

theorem parseDeclCoreV_func (doc : Option String) (n : String) (rest : List Tok) :
    parseDeclCoreV doc (.kwFunc :: .ident n :: .lparen :: .rparen :: .lbrace :: rest) =
      match parseStmtsV rest with
      | .error e => .error e
      | .ok (body, t) => .ok (.func doc n body, t) := by
  rw [parseDeclCoreV]
  unfold parseDeclCore
  dsimp only
  cases hs : parseStmts rest with
  | error e => rw [parseStmtsV, hs]; rfl
  | ok p2 =>
      obtain ⟨body, ⟨t, ht⟩⟩ := p2
      rw [parseStmtsV, hs]; rfl

theorem parseDeclV_comment (c : String) (rest : List Tok) :
    parseDeclV (.comment c :: rest) = parseDeclCoreV (some c) rest := by
  rw [parseDeclV]
  unfold parseDecl
  dsimp only
  cases hd : parseDeclCore (some c) rest with
  | error e => rw [parseDeclCoreV, hd]; rfl
  | ok p2 =>
      obtain ⟨d, ⟨t, ht⟩⟩ := p2
      rw [parseDeclCoreV, hd]; rfl

theorem parseDeclV_kwImport (ts : List Tok) :
    parseDeclV (.kwImport :: ts) = parseDeclCoreV none (.kwImport :: ts) := by
  rw [parseDeclV]
  unfold parseDecl
  rfl

theorem parseDeclV_kwFunc (ts : List Tok) :
    parseDeclV (.kwFunc :: ts) = parseDeclCoreV none (.kwFunc :: ts) := by
  rw [parseDeclV]
  unfold parseDecl
  rfl

theorem parseDeclsV_nil : parseDeclsV [] = .ok ([], []) := by
  rw [parseDeclsV, parseDecls.eq_def]; rfl

theorem parseDeclsV_step (t : Tok) (ts : List Tok) (h : declStart t = true) :
    parseDeclsV (t :: ts) =
      match parseDeclV (t :: ts) with
      | .error e => .error e
      | .ok (d, t1) =>
          match parseDeclsV t1 with
          | .error e => .error e
          | .ok (ds, t2) => .ok (d :: ds, t2) := by
  rw [parseDeclsV, parseDecls.eq_def]
  cases t
  case comment c =>
      dsimp only
      cases hd : parseDecl (Tok.comment c :: ts) with
      | error e => rw [parseDeclV, hd]; rfl
      | ok p =>
          obtain ⟨d, ⟨t1, h1⟩⟩ := p
          rw [parseDeclV, hd]
          dsimp only [pstrip]
          cases hds : parseDecls t1 with
          | error e => rw [parseDeclsV, hds]; rfl
          | ok q =>
              obtain ⟨ds, ⟨t2, h2⟩⟩ := q
              rw [parseDeclsV, hds]; rfl
  case kwImport =>
      dsimp only
      cases hd : parseDecl (Tok.kwImport :: ts) with
      | error e => rw [parseDeclV, hd]; rfl
      | ok p =>
          obtain ⟨d, ⟨t1, h1⟩⟩ := p
          rw [parseDeclV, hd]
          dsimp only [pstrip]
          cases hds : parseDecls t1 with
          | error e => rw [parseDeclsV, hds]; rfl
          | ok q =>
              obtain ⟨ds, ⟨t2, h2⟩⟩ := q
              rw [parseDeclsV, hds]; rfl
  case kwFunc =>
      dsimp only
      cases hd : parseDecl (Tok.kwFunc :: ts) with
      | error e => rw [parseDeclV, hd]; rfl
      | ok p =>
          obtain ⟨d, ⟨t1, h1⟩⟩ := p
          rw [parseDeclV, hd]
          dsimp only [pstrip]
          cases hds : parseDecls t1 with
          | error e => rw [parseDeclsV, hds]; rfl
          | ok q =>
              obtain ⟨ds, ⟨t2, h2⟩⟩ := q
              rw [parseDeclsV, hds]; rfl
  all_goals simp [declStart] at h

theorem parse_eq (toks : List Tok) :
    parse toks =
      match parseDeclsV toks with
      | .error e => .error ⟨toks.length - e.pos, e.msg⟩
      | .ok (ds, []) => .ok ⟨ds⟩
      | .ok (_, t) => .error ⟨toks.length - t.length, "unexpected trailing tokens"⟩ := by
  unfold parse
  cases hpd : parseDecls toks with
  | error e => rw [parseDeclsV, hpd]; rfl
  | ok p =>
      obtain ⟨ds, ⟨t, ht⟩⟩ := p
      rw [parseDeclsV, hpd]
      cases t with
      | nil => rfl
      | cons t2 ts2 => rfl

/-! ## Round trip: parsing a printed fragment

These lemmas prove that the parser inverts the printer; they are the
heart of the idempotent-printing property of the spec. -/

/-- The first token can start a printed expression. -/
def exprStartL : List Tok → Bool
  | t :: _ => exprStart t
  | [] => false

/-- The first token can start a printed declaration. -/
def declStartL : List Tok → Bool
  | t :: _ => declStart t
  | [] => false

/-- Tokens that may follow a printed composite-literal element. -/
def entryStop : List Tok → Bool
  | .dot :: _ => false
  | .lparen :: _ => false
  | .lbrace :: _ => false
  | .colon :: _ => false
  | _ => true

/-- Tokens that may follow a printed statement. -/
def stmtStop : List Tok → Bool
  | .dot :: _ => false
  | .lparen :: _ => false
  | .lbrace :: _ => false
  | .define :: _ => false
  | _ => true

theorem postStop_of_entryStop {l : List Tok} (h : entryStop l = true) :
    postStop l = true := by
  cases l with
  | nil => rfl
  | cons t ts => cases t <;> first | rfl | simp [entryStop] at h

theorem postStop_of_stmtStop {l : List Tok} (h : stmtStop l = true) :
    postStop l = true := by
  cases l with
  | nil => rfl
  | cons t ts => cases t <;> first | rfl | simp [stmtStop] at h

theorem stmtStop_of_exprStartL {l : List Tok} (h : exprStartL l = true) :
    stmtStop l = true := by
  cases l with
  | nil => rfl
  | cons t ts => cases t <;> first | rfl | simp [exprStartL, exprStart] at h

theorem exprStartL_printE : ∀ (e : Expr) (rest : List Tok),
    exprStartL (printE e ++ rest) = true
  | .ident s, rest => rfl
  | .str s, rest => rfl
  | .sel x f, rest => by
      simp only [printE, List.append_assoc]
      exact exprStartL_printE x _
  | .call fn args, rest => by
      simp only [printE, List.append_assoc]
      exact exprStartL_printE fn _
  | .comp ty elts, rest => by
      cases ty <;>
        simp [printE, printTy, List.append_assoc, List.cons_append,
          exprStartL, exprStart]

theorem exprStartL_printEntry (en : Option Expr × Expr) (rest : List Tok) :
    exprStartL (printEntry en ++ rest) = true := by
  obtain ⟨k, v⟩ := en
  cases k with
  | none => simp only [printEntry]; exact exprStartL_printE v rest
  | some k =>
      simp only [printEntry, List.append_assoc, List.cons_append]
      exact exprStartL_printE k _

theorem exprStartL_printStmt (st : Stmt) (rest : List Tok) :
    exprStartL (printStmt st ++ rest) = true := by
  cases st with
  | exprStmt e => simp only [printStmt]; exact exprStartL_printE e rest
  | assign l r =>
      simp only [printStmt, List.append_assoc, List.cons_append]
      exact exprStartL_printE l _

theorem declStartL_printDecl (d : Decl) (rest : List Tok) :
    declStartL (printDecl d ++ rest) = true := by
  cases d with
  | imports doc specs =>
      cases doc <;> simp [printDecl, printDocComment, declStartL, declStart,
        List.append_assoc, List.cons_append]
  | func doc n body =>
      cases doc <;> simp [printDecl, printDocComment, declStartL, declStart,
        List.append_assoc, List.cons_append]

theorem parseExprListV_go (toks : List Tok) (h : exprStartL toks = true) :
    parseExprListV toks =
      match parseExprV toks with
      | .error e => .error e
      | .ok (e, .comma :: r2) =>
          (match parseExprListV r2 with
           | .error er => .error er
           | .ok (es, t3) => .ok (e :: es, t3))
      | .ok (e, .rparen :: r2) => .ok ([e], r2)
      | .ok (_, other) =>
          .error ⟨other.length, "expected comma or closing paren in argument list"⟩ := by
  cases toks with
  | nil => simp [exprStartL] at h
  | cons t ts => exact parseExprListV_step t ts h

theorem parseEntryListV_go (toks : List Tok) (h : exprStartL toks = true) :
    parseEntryListV toks =
      match parseEntryV toks with
      | .error e => .error e
      | .ok (en, .comma :: r2) =>
          (match parseEntryListV r2 with
           | .error er => .error er
           | .ok (ens, t3) => .ok (en :: ens, t3))
      | .ok (en, .rbrace :: r2) => .ok ([en], r2)
      | .ok (_, other) =>
          .error ⟨other.length, "expected comma or closing brace in literal"⟩ := by
  cases toks with
  | nil => simp [exprStartL] at h
  | cons t ts => exact parseEntryListV_step t ts h

theorem parseStmtsV_go (toks : List Tok) (h : exprStartL toks = true) :
    parseStmtsV toks =
      match parseStmtV toks with
      | .error e => .error e
      | .ok (st, t1) =>
          match parseStmtsV t1 with
          | .error e => .error e
          | .ok (sts, t2) => .ok (st :: sts, t2) := by
  cases toks with
  | nil => simp [exprStartL] at h
  | cons t ts => exact parseStmtsV_step t ts h

theorem parseDeclsV_go (toks : List Tok) (h : declStartL toks = true) :
    parseDeclsV toks =
      match parseDeclV toks with
      | .error e => .error e
      | .ok (d, t1) =>
          match parseDeclsV t1 with
          | .error e => .error e
          | .ok (ds, t2) => .ok (d :: ds, t2) := by
  cases toks with
  | nil => simp [declStartL] at h
  | cons t ts => exact parseDeclsV_step t ts h

theorem parseTyV_print (t : Ty) : ∀ (rest : List Tok), tyStop rest = true →
    parseTyV (printTy t ++ rest) = .ok (t, rest) := by
  induction t with
  | ident s =>
      intro rest h
      simp only [printTy, List.cons_append, List.nil_append]
      exact parseTyV_ident s rest h
  | sel p n =>
      intro rest h
      simp only [printTy, List.cons_append, List.nil_append]
      exact parseTyV_sel p n rest
  | map k v ihk ihv =>
      intro rest h
      simp only [printTy, List.cons_append, List.nil_append, List.append_assoc,
        List.singleton_append]
      rw [parseTyV_map_step]
      rw [ihk (Tok.rbrack :: (printTy v ++ rest)) rfl]
      dsimp only
      rw [ihv rest h]

mutual

theorem parseExprV_print : ∀ (e : Expr) (rest : List Tok),
    parseExprV (printE e ++ rest) = parsePostfixV e rest
  | .ident s, rest => by
      simp only [printE, List.cons_append, List.nil_append]
      rw [parseExprV_step, parsePrimaryV_ident]
  | .str s, rest => by
      simp only [printE, List.cons_append, List.nil_append]
      rw [parseExprV_step, parsePrimaryV_str]
  | .sel x f, rest => by
      simp only [printE, List.append_assoc, List.cons_append, List.nil_append]
      rw [parseExprV_print x (Tok.dot :: Tok.ident f :: rest)]
      rw [parsePostfixV_dot]
  | .call fn args, rest => by
      simp only [printE, List.append_assoc, List.cons_append, List.nil_append,
        List.singleton_append]
      rw [parseExprV_print fn (Tok.lparen :: (printEList args ++ Tok.rparen :: rest))]
      rw [parsePostfixV_lparen]
      rw [parseExprListV_print args rest]
  | .comp ty elts, rest => by
      cases ty with
      | ident a =>
          simp only [printE, printTy, List.append_assoc, List.cons_append,
            List.nil_append, List.singleton_append]
          rw [parseExprV_step, parsePrimaryV_ident]
          dsimp only
          rw [parsePostfixV_lbrace]
          dsimp only [exprToTy]
          rw [parseEntryListV_print elts rest]
      | sel p n =>
          simp only [printE, printTy, List.append_assoc, List.cons_append,
            List.nil_append, List.singleton_append]
          rw [parseExprV_step, parsePrimaryV_ident]
          dsimp only
          rw [parsePostfixV_dot, parsePostfixV_lbrace]
          dsimp only [exprToTy]
          rw [parseEntryListV_print elts rest]
      | map k v =>
          simp only [printE, printTy, List.append_assoc, List.cons_append,
            List.nil_append, List.singleton_append]
          rw [parseExprV_step, parsePrimaryV_map_step]
          have hty := parseTyV_print (.map k v)
            (Tok.lbrace :: (printEntryList elts ++ Tok.rbrace :: rest)) rfl
          simp only [printTy, List.append_assoc, List.cons_append, List.nil_append,
            List.singleton_append] at hty
          rw [hty]
          dsimp only
          rw [parseEntryListV_print elts rest]
termination_by e rest => sizeOf e

theorem parseExprListV_print : ∀ (as : List Expr) (rest : List Tok),
    parseExprListV (printEList as ++ Tok.rparen :: rest) = .ok (as, rest)
  | [], rest => by
      simp only [printEList, List.nil_append]
      exact parseExprListV_rparen rest
  | [e], rest => by
      simp only [printEList]
      rw [parseExprListV_go _ (exprStartL_printE e _)]
      rw [parseExprV_print e (Tok.rparen :: rest)]
      rw [parsePostfixV_stop _ _ (by rfl)]
  | e :: e2 :: es, rest => by
      simp only [printEList, List.append_assoc, List.cons_append]
      rw [parseExprListV_go _ (exprStartL_printE e _)]
      rw [parseExprV_print e (Tok.comma :: (printEList (e2 :: es) ++ Tok.rparen :: rest))]
      rw [parsePostfixV_stop _ _ (by rfl)]
      dsimp only
      rw [parseExprListV_print (e2 :: es) rest]
termination_by as rest => sizeOf as

theorem parseEntryV_print : ∀ (en : Option Expr × Expr) (rest : List Tok),
    entryStop rest = true → parseEntryV (printEntry en ++ rest) = .ok (en, rest)
  | (none, v), rest, h => by
      simp only [printEntry]
      rw [parseEntryV_step]
      rw [parseExprV_print v rest]
      rw [parsePostfixV_stop _ _ (postStop_of_entryStop h)]
      cases rest with
      | nil => rfl
      | cons t2 rs2 => cases t2 <;> first | rfl | simp [entryStop] at h
  | (some k, v), rest, h => by
      simp only [printEntry, List.append_assoc, List.cons_append]
      rw [parseEntryV_step]
      rw [parseExprV_print k (Tok.colon :: (printE v ++ rest))]
      rw [parsePostfixV_stop _ _ (by rfl)]
      dsimp only
      rw [parseExprV_print v rest]
      rw [parsePostfixV_stop _ _ (postStop_of_entryStop h)]
termination_by en rest h => sizeOf en

theorem parseEntryListV_print : ∀ (ens : List (Option Expr × Expr)) (rest : List Tok),
    parseEntryListV (printEntryList ens ++ Tok.rbrace :: rest) = .ok (ens, rest)
  | [], rest => by
      simp only [printEntryList, List.nil_append]
      exact parseEntryListV_rbrace rest
  | [en], rest => by
      simp only [printEntryList]
      rw [parseEntryListV_go _ (exprStartL_printEntry en _)]
      rw [parseEntryV_print en (Tok.rbrace :: rest) (by rfl)]
  | en :: en2 :: ens, rest => by
      simp only [printEntryList, List.append_assoc, List.cons_append]
      rw [parseEntryListV_go _ (exprStartL_printEntry en _)]
      rw [parseEntryV_print en
        (Tok.comma :: (printEntryList (en2 :: ens) ++ Tok.rbrace :: rest)) (by rfl)]
      dsimp only
      rw [parseEntryListV_print (en2 :: ens) rest]
termination_by ens rest => sizeOf ens

end

theorem parseStmtV_print (st : Stmt) (rest : List Tok) (h : stmtStop rest = true) :
    parseStmtV (printStmt st ++ rest) = .ok (st, rest) := by
  cases st with
  | exprStmt e =>
      simp only [printStmt]
      rw [parseStmtV_step]
      rw [parseExprV_print e rest]
      rw [parsePostfixV_stop _ _ (postStop_of_stmtStop h)]
      cases rest with
      | nil => rfl
      | cons t2 rs2 => cases t2 <;> first | rfl | simp [stmtStop] at h
  | assign l r =>
      simp only [printStmt, List.append_assoc, List.cons_append]
      rw [parseStmtV_step]
      rw [parseExprV_print l (Tok.define :: (printE r ++ rest))]
      rw [parsePostfixV_stop _ _ (by rfl)]
      dsimp only
      rw [parseExprV_print r rest]
      rw [parsePostfixV_stop _ _ (postStop_of_stmtStop h)]

theorem stmtStop_tail (body : List Stmt) (rest : List Tok) :
    stmtStop (catMap printStmt body ++ Tok.rbrace :: rest) = true := by
  cases body with
  | nil => rfl
  | cons st sts =>
      simp only [catMap, List.append_assoc]
      exact stmtStop_of_exprStartL (exprStartL_printStmt st _)

theorem parseStmtsV_print : ∀ (body : List Stmt) (rest : List Tok),
    parseStmtsV (catMap printStmt body ++ Tok.rbrace :: rest) = .ok (body, rest)
  | [], rest => by
      simp only [catMap, List.nil_append]
      exact parseStmtsV_rbrace rest
  | st :: sts, rest => by
      simp only [catMap, List.append_assoc]
      rw [parseStmtsV_go _ (exprStartL_printStmt st _)]
      rw [parseStmtV_print st _ (stmtStop_tail sts rest)]
      dsimp only
      rw [parseStmtsV_print sts rest]

theorem parseSpecsV_print : ∀ (specs : List ImportSpec) (rest : List Tok),
    parseSpecsV (catMap printSpec specs ++ Tok.rparen :: rest) = .ok (specs, rest)
  | [], rest => by
      simp only [catMap, List.nil_append]
      exact parseSpecsV_rparen rest
  | ⟨some n, p⟩ :: specs, rest => by
      simp only [catMap, printSpec, List.append_assoc, List.cons_append,
        List.nil_append]
      rw [parseSpecsV_named]
      rw [parseSpecsV_print specs rest]
  | ⟨none, p⟩ :: specs, rest => by
      simp only [catMap, printSpec, List.append_assoc, List.cons_append,
        List.nil_append]
      rw [parseSpecsV_anon]
      rw [parseSpecsV_print specs rest]

theorem parseDeclV_print (d : Decl) (rest : List Tok) :
    parseDeclV (printDecl d ++ rest) = .ok (d, rest) := by
  cases d with
  | imports doc specs =>
      cases doc with
      | none =>
          simp only [printDecl, printDocComment, List.append_assoc, List.cons_append,
            List.nil_append]
          rw [parseDeclV_kwImport, parseDeclCoreV_import]
          rw [parseSpecsV_print specs rest]
      | some c =>
          simp only [printDecl, printDocComment, List.append_assoc, List.cons_append,
            List.nil_append]
          rw [parseDeclV_comment, parseDeclCoreV_import]
          rw [parseSpecsV_print specs rest]
  | func doc n body =>
      cases doc with
      | none =>
          simp only [printDecl, printDocComment, List.append_assoc, List.cons_append,
            List.nil_append]
          rw [parseDeclV_kwFunc, parseDeclCoreV_func]
          rw [parseStmtsV_print body rest]
      | some c =>
          simp only [printDecl, printDocComment, List.append_assoc, List.cons_append,
            List.nil_append]
          rw [parseDeclV_comment, parseDeclCoreV_func]
          rw [parseStmtsV_print body rest]

theorem parseDeclsV_print : ∀ (ds : List Decl),
    parseDeclsV (catMap printDecl ds) = .ok (ds, [])
  | [] => by
      simp only [catMap]
      exact parseDeclsV_nil
  | d :: ds => by
      simp only [catMap]
      rw [parseDeclsV_go _ (declStartL_printDecl d _)]
      rw [parseDeclV_print d _]
      dsimp only
      rw [parseDeclsV_print ds]

/-- The parser inverts the printer: a printed document parses back to
itself. -/
theorem parse_print (f : File) : parse (printFile f) = .ok f := by
  rw [parse_eq, printFile]
  rw [parseDeclsV_print f.decls]

/-! ## The mutation engine (translated from `cmd/grob/main.go`)

`addAppToInternalMain` and `addModuleToAppMain` walk the parsed file
with `ast.Inspect`. A callback that matches a node mutates it in place
and returns false; returning false prunes the matched subtree but does
not stop the walk, which continues with later siblings. An unmatched
node returns true and the walk descends into its children. `inspectE`
reproduces exactly that semantics as a pure transformation. -/

mutual
/-- Apply `f` at every expression matched by `p` that is not nested
inside another match, following the `ast.Inspect` order and pruning. -/
def inspectE (p : Expr → Bool) (f : Expr → Expr) : Expr → Expr
  | .ident s => if p (.ident s) then f (.ident s) else .ident s
  | .str s => if p (.str s) then f (.str s) else .str s
  | .sel x fl => if p (.sel x fl) then f (.sel x fl) else .sel (inspectE p f x) fl
  | .call fn args =>
      if p (.call fn args) then f (.call fn args)
      else .call (inspectE p f fn) (inspectEList p f args)
  | .comp ty elts =>
      if p (.comp ty elts) then f (.comp ty elts)
      else .comp ty (inspectEntries p f elts)

/-- `inspectE` over an argument list. -/
def inspectEList (p : Expr → Bool) (f : Expr → Expr) : List Expr → List Expr
  | [] => []
  | e :: es => inspectE p f e :: inspectEList p f es

/-- `inspectE` over composite-literal elements (the walk descends into
the key and the value of a `KeyValueExpr`). -/
def inspectEntries (p : Expr → Bool) (f : Expr → Expr) :
    List (Option Expr × Expr) → List (Option Expr × Expr)
  | [] => []
  | (none, v) :: ens => (none, inspectE p f v) :: inspectEntries p f ens
  | (some k, v) :: ens =>
      (some (inspectE p f k), inspectE p f v) :: inspectEntries p f ens
end

/-- `inspectE` lifted to statements (the walk visits assignment sides
in order). -/
def inspectStmt (p : Expr → Bool) (f : Expr → Expr) : Stmt → Stmt
  | .exprStmt e => .exprStmt (inspectE p f e)
  | .assign l r => .assign (inspectE p f l) (inspectE p f r)

/-- `inspectE` lifted to declarations: import declarations hold no
expressions the two expression callbacks can match. -/
def inspectDecl (p : Expr → Bool) (f : Expr → Expr) : Decl → Decl
  | .imports doc specs => .imports doc specs
  | .func doc n body => .func doc n (body.map (inspectStmt p f))

/-- `inspectE` lifted to a whole file. -/
def inspectFile (p : Expr → Bool) (f : Expr → Expr) (fl : File) : File :=
  ⟨fl.decls.map (inspectDecl p f)⟩

/-- The first `ast.Inspect` pass of both registration functions: the
callback matches a `GenDecl` with token `IMPORT`, appends the new spec
to `gd.Specs`, and returns false — which prunes that declaration only,
so every import declaration in the file receives the appended spec. -/
def addImportWalk (spec : ImportSpec) (fl : File) : File :=
  ⟨fl.decls.map fun d =>
    match d with
    | .imports doc specs => .imports doc (specs ++ [spec])
    | d => d⟩

/-- Is the callee the selector `core.New` (`se.X` an identifier named
`core`, `se.Sel` named `New`)? -/
def isCoreNewCallee : Expr → Bool
  | .sel (.ident "core") "New" => true
  | _ => false

/-- The anchor of the second pass of `addModuleToAppMain`: a `CallExpr`
whose callee is `core.New`. -/
def isCoreNewCall : Expr → Bool
  | .call fn _ => isCoreNewCallee fn
  | _ => false

/-- Append an argument to a call (`ce.Args = append(ce.Args, ...)`). -/
def appendArg (a : Expr) : Expr → Expr
  | .call fn args => .call fn (args ++ [a])
  | e => e

/-- Is the type a map type with key the identifier `string`? -/
def isStringMapTy : Ty → Bool
  | .map (.ident "string") _ => true
  | _ => false

/-- The anchor of the second pass of `addAppToInternalMain`: a
`CompositeLit` whose type is a map type with key `string`. -/
def isStringMapComposite : Expr → Bool
  | .comp ty _ => isStringMapTy ty
  | _ => false

/-- Append a key-value entry to a composite literal
(`cl.Elts = append(cl.Elts, ...)`). -/
def appendEntry (en : Option Expr × Expr) : Expr → Expr
  | .comp ty elts => .comp ty (elts ++ [en])
  | e => e

/-- Wrap a string in quotes, as the `fmt.Sprintf` calls with quoted
verbs do in the source. -/
def quote (s : String) : String := "\"" ++ s ++ "\""

/-- The import spec `addAppToInternalMain` appends:
`"<project>/internal/<app>"`, with no local name. -/
def appImportSpec (projectName appName : String) : ImportSpec :=
  ⟨none, quote (projectName ++ "/internal/" ++ appName)⟩

/-- The registry entry `addAppToInternalMain` appends:
key `"<app>"`, value `<app>.App{}`. -/
def appEntry (appName : String) : Option Expr × Expr :=
  (some (.str (quote appName)), .comp (.sel appName "App") [])

/-- The import spec `addModuleToAppMain` appends:
`<module> "<project>/internal/<app>/<module>"`. -/
def moduleImportSpec (projectName appName moduleName : String) : ImportSpec :=
  ⟨some moduleName,
    quote (projectName ++ "/internal/" ++ appName ++ "/" ++ moduleName)⟩

/-- The call argument `addModuleToAppMain` appends:
`<module>.<Module>Module{}` (`strings.Title` capitalizes the single-word
module name, modelled by `String.capitalize`). -/
def moduleArg (moduleName : String) : Expr :=
  .comp (.sel moduleName (moduleName.capitalize ++ "Module")) []

/-- `addAppToInternalMain(path, projectName, appName)`: parse the file,
run the import-append pass, run the registry-entry pass, print. The
returned bytes are what `os.WriteFile` writes back; an error return
means the function aborted before the write. -/
def addAppToInternalMain (content : List Tok) (projectName appName : String) :
    Except ParseError (List Tok) :=
  match parse content with
  | .error e => .error e
  | .ok node =>
      .ok (printFile
        (inspectFile isStringMapComposite (appendEntry (appEntry appName))
          (addImportWalk (appImportSpec projectName appName) node)))

/-- `addModuleToAppMain(path, projectName, appName, moduleName)`: parse
the file, run the import-append pass, run the call-argument pass,
print. -/
def addModuleToAppMain (content : List Tok)
    (projectName appName moduleName : String) : Except ParseError (List Tok) :=
  match parse content with
  | .error e => .error e
  | .ok node =>
      .ok (printFile
        (inspectFile isCoreNewCall (appendArg (moduleArg moduleName))
          (addImportWalk (moduleImportSpec projectName appName moduleName) node)))

/-- The effect of one `create-app` registration run on the target file:
on success the printed bytes overwrite the file; on error the file is
left unchanged (the function returns before `os.WriteFile`). -/
def runAddApp (content : List Tok) (projectName appName : String) : List Tok :=
  match addAppToInternalMain content projectName appName with
  | .ok out => out
  | .error _ => content

/-- The effect of one `create-module` registration run on the target
file. -/
def runAddModule (content : List Tok)
    (projectName appName moduleName : String) : List Tok :=
  match addModuleToAppMain content projectName appName moduleName with
  | .ok out => out
  | .error _ => content

/-! ## Anchor locators

The first match in the pre-order traversal order of `ast.Inspect`, used
to state the claims about which node a mutation lands on. -/

/-- First present value in a list of optional results. -/
def firstSome : List (Option α) → Option α
  | [] => none
  | some a :: _ => some a
  | none :: rest => firstSome rest

mutual
/-- The first expression satisfying `p` in pre-order: a node before its
children, callee before arguments, key before value. -/
def locateE (p : Expr → Bool) : Expr → Option Expr
  | .ident s => if p (.ident s) then some (.ident s) else none
  | .str s => if p (.str s) then some (.str s) else none
  | .sel x fl => if p (.sel x fl) then some (.sel x fl) else locateE p x
  | .call fn args =>
      if p (.call fn args) then some (.call fn args)
      else (locateE p fn).orElse fun _ => locateEList p args
  | .comp ty elts =>
      if p (.comp ty elts) then some (.comp ty elts) else locateEntries p elts

/-- `locateE` over an argument list. -/
def locateEList (p : Expr → Bool) : List Expr → Option Expr
  | [] => none
  | e :: es => (locateE p e).orElse fun _ => locateEList p es

/-- `locateE` over composite-literal elements. -/
def locateEntries (p : Expr → Bool) : List (Option Expr × Expr) → Option Expr
  | [] => none
  | (none, v) :: ens => (locateE p v).orElse fun _ => locateEntries p ens
  | (some k, v) :: ens =>
      ((locateE p k).orElse fun _ => locateE p v).orElse fun _ =>
        locateEntries p ens
end

/-- `locateE` lifted to statements. -/
def locateStmt (p : Expr → Bool) : Stmt → Option Expr
  | .exprStmt e => locateE p e
  | .assign l r => (locateE p l).orElse fun _ => locateE p r

/-- `locateE` lifted to declarations. -/
def locateDecl (p : Expr → Bool) : Decl → Option Expr
  | .imports _ _ => none
  | .func _ _ body => firstSome (body.map (locateStmt p))

/-- The first anchor expression in the file, in declaration order. -/
def locateFile (p : Expr → Bool) (fl : File) : Option Expr :=
  firstSome (fl.decls.map (locateDecl p))

/-- The specs of the first import declaration: the `SoleImportList`
anchor. -/
def firstImports : List Decl → Option (List ImportSpec)
  | [] => none
  | .imports _ specs :: _ => some specs
  | _ :: ds => firstImports ds

/-! ## How the mutation walks interact with the locators -/

theorem isCoreNewCall_appendArg (a : Expr) (e : Expr) :
    isCoreNewCall (appendArg a e) = isCoreNewCall e := by
  cases e <;> rfl

theorem isStringMap_appendEntry (en : Option Expr × Expr) (e : Expr) :
    isStringMapComposite (appendEntry en e) = isStringMapComposite e := by
  cases e <;> rfl

/-- The call-argument pass never changes whether a callee is
`core.New`. -/
theorem isCoreNewCallee_inspect (a : Expr) (fn : Expr) :
    isCoreNewCallee (inspectE isCoreNewCall (appendArg a) fn) = isCoreNewCallee fn := by
  cases fn with
  | ident s => rfl
  | str s => rfl
  | comp ty elts => rfl
  | call fn2 args2 =>
      rw [inspectE]
      by_cases hp : isCoreNewCall (.call fn2 args2) = true
      · rw [if_pos hp]; rfl
      · rw [if_neg hp]; rfl
  | sel x g =>
      rw [inspectE]
      rw [if_neg (by simp [isCoreNewCall] : ¬ isCoreNewCall (.sel x g) = true)]
      cases x with
      | ident s => rfl
      | str s => rfl
      | comp ty elts => rfl
      | sel x2 g2 => rfl
      | call f2 a2 =>
          rw [inspectE]
          by_cases hp : isCoreNewCall (.call f2 a2) = true
          · rw [if_pos hp]; rfl
          · rw [if_neg hp]; rfl

mutual

/-- Locating after the call-argument pass: the first `core.New` call of
the mutated tree is the first `core.New` call of the original with the
argument appended. -/
theorem locateE_inspect_core (a : Expr) : ∀ (e : Expr),
    locateE isCoreNewCall (inspectE isCoreNewCall (appendArg a) e)
      = (locateE isCoreNewCall e).map (appendArg a)
  | .ident s => rfl
  | .str s => rfl
  | .sel x fl => by
      rw [inspectE]
      rw [if_neg (by simp [isCoreNewCall] : ¬ isCoreNewCall (.sel x fl) = true)]
      rw [locateE, locateE]
      rw [if_neg (by simp [isCoreNewCall] :
        ¬ isCoreNewCall (.sel (inspectE isCoreNewCall (appendArg a) x) fl) = true)]
      rw [if_neg (by simp [isCoreNewCall] : ¬ isCoreNewCall (.sel x fl) = true)]
      exact locateE_inspect_core a x
  | .call fn args => by
      rw [inspectE]
      by_cases hp : isCoreNewCall (.call fn args) = true
      · rw [if_pos hp]
        dsimp only [appendArg]
        rw [locateE, locateE]
        rw [if_pos (show isCoreNewCall (.call fn (args ++ [a])) = true from hp)]
        rw [if_pos hp]
        rfl
      · rw [if_neg hp]
        rw [locateE, locateE]
        have hc : isCoreNewCall
            (.call (inspectE isCoreNewCall (appendArg a) fn)
              (inspectEList isCoreNewCall (appendArg a) args)) = isCoreNewCall (.call fn args) := by
          show isCoreNewCallee (inspectE isCoreNewCall (appendArg a) fn)
              = isCoreNewCallee fn
          exact isCoreNewCallee_inspect a fn
        rw [if_neg (by rw [hc]; exact hp), if_neg hp]
        rw [locateE_inspect_core a fn, locateEList_inspect_core a args]
        cases locateE isCoreNewCall fn <;> rfl
  | .comp ty elts => by
      rw [inspectE]
      rw [if_neg (by simp [isCoreNewCall] : ¬ isCoreNewCall (.comp ty elts) = true)]
      rw [locateE, locateE]
      rw [if_neg (by simp [isCoreNewCall] :
        ¬ isCoreNewCall (.comp ty (inspectEntries isCoreNewCall (appendArg a) elts)) = true)]
      rw [if_neg (by simp [isCoreNewCall] : ¬ isCoreNewCall (.comp ty elts) = true)]
      exact locateEntries_inspect_core a elts
termination_by e => sizeOf e

theorem locateEList_inspect_core (a : Expr) : ∀ (es : List Expr),
    locateEList isCoreNewCall (inspectEList isCoreNewCall (appendArg a) es)
      = (locateEList isCoreNewCall es).map (appendArg a)
  | [] => rfl
  | e :: es => by
      rw [inspectEList, locateEList, locateEList]
      rw [locateE_inspect_core a e, locateEList_inspect_core a es]
      cases locateE isCoreNewCall e <;> rfl
termination_by es => sizeOf es

theorem locateEntries_inspect_core (a : Expr) : ∀ (ens : List (Option Expr × Expr)),
    locateEntries isCoreNewCall (inspectEntries isCoreNewCall (appendArg a) ens)
      = (locateEntries isCoreNewCall ens).map (appendArg a)
  | [] => rfl
  | (none, v) :: ens => by
      rw [inspectEntries, locateEntries, locateEntries]
      rw [locateE_inspect_core a v, locateEntries_inspect_core a ens]
      cases locateE isCoreNewCall v <;> rfl
  | (some k, v) :: ens => by
      rw [inspectEntries, locateEntries, locateEntries]
      rw [locateE_inspect_core a k, locateE_inspect_core a v,
        locateEntries_inspect_core a ens]
      cases locateE isCoreNewCall k <;> cases locateE isCoreNewCall v <;> rfl
termination_by ens => sizeOf ens

end

mutual

/-- Locating after the registry-entry pass: the first string-keyed map
literal of the mutated tree is the first one of the original with the
entry appended. -/
theorem locateE_inspect_map (en : Option Expr × Expr) : ∀ (e : Expr),
    locateE isStringMapComposite (inspectE isStringMapComposite (appendEntry en) e)
      = (locateE isStringMapComposite e).map (appendEntry en)
  | .ident s => rfl
  | .str s => rfl
  | .sel x fl => by
      rw [inspectE]
      rw [if_neg (by simp [isStringMapComposite] :
        ¬ isStringMapComposite (.sel x fl) = true)]
      rw [locateE, locateE]
      rw [if_neg (by simp [isStringMapComposite] :
        ¬ isStringMapComposite
          (.sel (inspectE isStringMapComposite (appendEntry en) x) fl) = true)]
      rw [if_neg (by simp [isStringMapComposite] :
        ¬ isStringMapComposite (.sel x fl) = true)]
      exact locateE_inspect_map en x
  | .call fn args => by
      rw [inspectE]
      rw [if_neg (by simp [isStringMapComposite] :
        ¬ isStringMapComposite (.call fn args) = true)]
      rw [locateE, locateE]
      rw [if_neg (by simp [isStringMapComposite] :
        ¬ isStringMapComposite
          (.call (inspectE isStringMapComposite (appendEntry en) fn)
            (inspectEList isStringMapComposite (appendEntry en) args)) = true)]
      rw [if_neg (by simp [isStringMapComposite] :
        ¬ isStringMapComposite (.call fn args) = true)]
      rw [locateE_inspect_map en fn, locateEList_inspect_map en args]
      cases locateE isStringMapComposite fn <;> rfl
  | .comp ty elts => by
      rw [inspectE]
      by_cases hp : isStringMapComposite (.comp ty elts) = true
      · rw [if_pos hp]
        dsimp only [appendEntry]
        rw [locateE, locateE]
        rw [if_pos (show isStringMapComposite (.comp ty (elts ++ [en])) = true from hp)]
        rw [if_pos hp]
        rfl
      · rw [if_neg hp]
        rw [locateE, locateE]
        rw [if_neg (show ¬ isStringMapComposite
            (.comp ty (inspectEntries isStringMapComposite (appendEntry en) elts))
              = true from hp)]
        rw [if_neg hp]
        exact locateEntries_inspect_map en elts
termination_by e => sizeOf e

theorem locateEList_inspect_map (en : Option Expr × Expr) : ∀ (es : List Expr),
    locateEList isStringMapComposite (inspectEList isStringMapComposite (appendEntry en) es)
      = (locateEList isStringMapComposite es).map (appendEntry en)
  | [] => rfl
  | e :: es => by
      rw [inspectEList, locateEList, locateEList]
      rw [locateE_inspect_map en e, locateEList_inspect_map en es]
      cases locateE isStringMapComposite e <;> rfl
termination_by es => sizeOf es

theorem locateEntries_inspect_map (en : Option Expr × Expr) :
    ∀ (ens : List (Option Expr × Expr)),
    locateEntries isStringMapComposite
        (inspectEntries isStringMapComposite (appendEntry en) ens)
      = (locateEntries isStringMapComposite ens).map (appendEntry en)
  | [] => rfl
  | (none, v) :: ens => by
      rw [inspectEntries, locateEntries, locateEntries]
      rw [locateE_inspect_map en v, locateEntries_inspect_map en ens]
      cases locateE isStringMapComposite v <;> rfl
  | (some k, v) :: ens => by
      rw [inspectEntries, locateEntries, locateEntries]
      rw [locateE_inspect_map en k, locateE_inspect_map en v,
        locateEntries_inspect_map en ens]
      cases locateE isStringMapComposite k <;>
        cases locateE isStringMapComposite v <;> rfl
termination_by ens => sizeOf ens

end

theorem firstSome_none {l : List (Option Expr)} (h : firstSome l = none) :
    ∀ o ∈ l, o = none := by
  induction l with
  | nil => intro o ho; simp at ho
  | cons a rest ih =>
      intro o ho
      cases a with
      | some v => rw [firstSome] at h; exact absurd h (by simp)
      | none =>
          rw [firstSome] at h
          rcases List.mem_cons.mp ho with rfl | ho2
          · rfl
          · exact ih h o ho2

theorem locateStmt_inspect (p : Expr → Bool) (f : Expr → Expr)
    (hE : ∀ e, locateE p (inspectE p f e) = (locateE p e).map f) (st : Stmt) :
    locateStmt p (inspectStmt p f st) = (locateStmt p st).map f := by
  cases st with
  | exprStmt e => exact hE e
  | assign l r =>
      show ((locateE p (inspectE p f l)).orElse fun _ => locateE p (inspectE p f r))
          = ((locateE p l).orElse fun _ => locateE p r).map f
      rw [hE l, hE r]
      cases locateE p l <;> rfl

theorem locateDecl_inspect (p : Expr → Bool) (f : Expr → Expr)
    (hE : ∀ e, locateE p (inspectE p f e) = (locateE p e).map f) (d : Decl) :
    locateDecl p (inspectDecl p f d) = (locateDecl p d).map f := by
  cases d with
  | imports doc specs => rfl
  | func doc n body =>
      show firstSome ((body.map (inspectStmt p f)).map (locateStmt p))
          = (firstSome (body.map (locateStmt p))).map f
      induction body with
      | nil => rfl
      | cons st sts ih =>
          show firstSome (locateStmt p (inspectStmt p f st) :: _)
              = (firstSome (locateStmt p st :: _)).map f
          rw [locateStmt_inspect p f hE st]
          cases locateStmt p st with
          | some v => rfl
          | none => exact ih

theorem locateFile_inspect (p : Expr → Bool) (f : Expr → Expr)
    (hE : ∀ e, locateE p (inspectE p f e) = (locateE p e).map f) (fl : File) :
    locateFile p (inspectFile p f fl) = (locateFile p fl).map f := by
  obtain ⟨ds⟩ := fl
  show firstSome ((ds.map (inspectDecl p f)).map (locateDecl p))
      = (firstSome (ds.map (locateDecl p))).map f
  induction ds with
  | nil => rfl
  | cons d ds ih =>
      show firstSome (locateDecl p (inspectDecl p f d) :: _)
          = (firstSome (locateDecl p d :: _)).map f
      rw [locateDecl_inspect p f hE d]
      cases locateDecl p d with
      | some v => rfl
      | none => exact ih

mutual

/-- A subtree containing no anchor is left untouched by the pass. -/
theorem inspectE_id (p : Expr → Bool) (f : Expr → Expr) :
    ∀ (e : Expr), locateE p e = none → inspectE p f e = e
  | .ident s, h => by
      rw [locateE] at h
      rw [inspectE]
      by_cases hp : p (.ident s) = true
      · rw [if_pos hp] at h; exact absurd h (by simp)
      · rw [if_neg hp]
  | .str s, h => by
      rw [locateE] at h
      rw [inspectE]
      by_cases hp : p (.str s) = true
      · rw [if_pos hp] at h; exact absurd h (by simp)
      · rw [if_neg hp]
  | .sel x fl, h => by
      rw [locateE] at h
      rw [inspectE]
      by_cases hp : p (.sel x fl) = true
      · rw [if_pos hp] at h; exact absurd h (by simp)
      · rw [if_neg hp] at h
        rw [if_neg hp, inspectE_id p f x h]
  | .call fn args, h => by
      rw [locateE] at h
      rw [inspectE]
      by_cases hp : p (.call fn args) = true
      · rw [if_pos hp] at h; exact absurd h (by simp)
      · rw [if_neg hp] at h
        rw [if_neg hp]
        cases hfn : locateE p fn with
        | some v => rw [hfn] at h; exact absurd h (by simp [Option.orElse])
        | none =>
            rw [hfn] at h
            cases hargs : locateEList p args with
            | some v => rw [hargs] at h; exact absurd h (by simp [Option.orElse])
            | none => rw [inspectE_id p f fn hfn, inspectEList_id p f args hargs]
  | .comp ty elts, h => by
      rw [locateE] at h
      rw [inspectE]
      by_cases hp : p (.comp ty elts) = true
      · rw [if_pos hp] at h; exact absurd h (by simp)
      · rw [if_neg hp] at h
        rw [if_neg hp, inspectEntries_id p f elts h]
termination_by e => sizeOf e

theorem inspectEList_id (p : Expr → Bool) (f : Expr → Expr) :
    ∀ (es : List Expr), locateEList p es = none → inspectEList p f es = es
  | [], _ => rfl
  | e :: es, h => by
      rw [locateEList] at h
      cases he : locateE p e with
      | some v => rw [he] at h; exact absurd h (by simp [Option.orElse])
      | none =>
          rw [he] at h
          simp only [Option.orElse] at h
          rw [inspectEList, inspectE_id p f e he, inspectEList_id p f es h]
termination_by es => sizeOf es

theorem inspectEntries_id (p : Expr → Bool) (f : Expr → Expr) :
    ∀ (ens : List (Option Expr × Expr)), locateEntries p ens = none →
      inspectEntries p f ens = ens
  | [], _ => rfl
  | (none, v) :: ens, h => by
      rw [locateEntries] at h
      cases hv : locateE p v with
      | some w => rw [hv] at h; exact absurd h (by simp [Option.orElse])
      | none =>
          rw [hv] at h
          simp only [Option.orElse] at h
          rw [inspectEntries, inspectE_id p f v hv, inspectEntries_id p f ens h]
  | (some k, v) :: ens, h => by
      rw [locateEntries] at h
      cases hk : locateE p k with
      | some w => rw [hk] at h; exact absurd h (by simp [Option.orElse])
      | none =>
          rw [hk] at h
          cases hv : locateE p v with
          | some w => rw [hv] at h; exact absurd h (by simp [Option.orElse])
          | none =>
              rw [hv] at h
              simp only [Option.orElse] at h
              rw [inspectEntries, inspectE_id p f k hk, inspectE_id p f v hv,
                inspectEntries_id p f ens h]
termination_by ens => sizeOf ens

end

theorem inspectStmt_id (p : Expr → Bool) (f : Expr → Expr) (st : Stmt)
    (h : locateStmt p st = none) : inspectStmt p f st = st := by
  cases st with
  | exprStmt e => rw [inspectStmt, inspectE_id p f e h]
  | assign l r =>
      rw [locateStmt] at h
      cases hl : locateE p l with
      | some v => rw [hl] at h; exact absurd h (by simp [Option.orElse])
      | none =>
          rw [hl] at h
          simp only [Option.orElse] at h
          rw [inspectStmt, inspectE_id p f l hl, inspectE_id p f r h]

theorem inspectDecl_id (p : Expr → Bool) (f : Expr → Expr) (d : Decl)
    (h : locateDecl p d = none) : inspectDecl p f d = d := by
  cases d with
  | imports doc specs => rfl
  | func doc n body =>
      rw [inspectDecl]
      rw [locateDecl] at h
      congr 1
      induction body with
      | nil => rfl
      | cons st sts ih =>
          rw [List.map_cons] at h ⊢
          cases hst : locateStmt p st with
          | some v =>
              rw [hst] at h
              rw [firstSome] at h
              exact absurd h (by simp)
          | none =>
              rw [hst] at h
              rw [firstSome] at h
              rw [inspectStmt_id p f st hst, ih h]

theorem inspectFile_id (p : Expr → Bool) (f : Expr → Expr) (fl : File)
    (h : locateFile p fl = none) : inspectFile p f fl = fl := by
  obtain ⟨ds⟩ := fl
  rw [locateFile] at h
  rw [inspectFile]
  congr 1
  induction ds with
  | nil => rfl
  | cons d ds ih =>
      rw [List.map_cons] at h ⊢
      cases hd : locateDecl p d with
      | some v =>
          rw [hd] at h
          rw [firstSome] at h
          exact absurd h (by simp)
      | none =>
          rw [hd] at h
          rw [firstSome] at h
          rw [inspectDecl_id p f d hd, ih h]

theorem firstImports_addImportWalk (spec : ImportSpec) (fl : File) :
    firstImports (addImportWalk spec fl).decls
      = (firstImports fl.decls).map (fun specs => specs ++ [spec]) := by
  obtain ⟨ds⟩ := fl
  induction ds with
  | nil => rfl
  | cons d ds ih =>
      cases d with
      | imports doc specs => rfl
      | func doc n body => exact ih

theorem firstImports_inspectFile (p : Expr → Bool) (f : Expr → Expr) (fl : File) :
    firstImports (inspectFile p f fl).decls = firstImports fl.decls := by
  obtain ⟨ds⟩ := fl
  induction ds with
  | nil => rfl
  | cons d ds ih =>
      cases d with
      | imports doc specs => rfl
      | func doc n body => exact ih

theorem locateFile_addImportWalk (p : Expr → Bool) (spec : ImportSpec) (fl : File) :
    locateFile p (addImportWalk spec fl) = locateFile p fl := by
  obtain ⟨ds⟩ := fl
  induction ds with
  | nil => rfl
  | cons d ds ih =>
      cases d with
      | imports doc specs => exact ih
      | func doc n body =>
          simp only [locateFile, addImportWalk, List.map_cons] at ih ⊢
          cases locateDecl p (Decl.func doc n body) with
          | some v => rfl
          | none => exact ih

/-! ## Unfolding the orchestrations on a successful parse -/

theorem addApp_ok {s : List Tok} {f0 : File} (h : parse s = .ok f0)
    (p a : String) :
    addAppToInternalMain s p a = .ok (printFile
      (inspectFile isStringMapComposite (appendEntry (appEntry a))
        (addImportWalk (appImportSpec p a) f0))) := by
  unfold addAppToInternalMain
  rw [h]

theorem addModule_ok {s : List Tok} {f0 : File} (h : parse s = .ok f0)
    (p a m : String) :
    addModuleToAppMain s p a m = .ok (printFile
      (inspectFile isCoreNewCall (appendArg (moduleArg m))
        (addImportWalk (moduleImportSpec p a m) f0))) := by
  unfold addModuleToAppMain
  rw [h]

theorem runAddApp_ok {s : List Tok} {f0 : File} (h : parse s = .ok f0)
    (p a : String) :
    runAddApp s p a = printFile
      (inspectFile isStringMapComposite (appendEntry (appEntry a))
        (addImportWalk (appImportSpec p a) f0)) := by
  unfold runAddApp
  rw [addApp_ok h]

theorem runAddModule_ok {s : List Tok} {f0 : File} (h : parse s = .ok f0)
    (p a m : String) :
    runAddModule s p a m = printFile
      (inspectFile isCoreNewCall (appendArg (moduleArg m))
        (addImportWalk (moduleImportSpec p a m) f0)) := by
  unfold runAddModule
  rw [addModule_ok h]

/-! ## Project name extraction (`getProjectName` in `cmd/grob/main.go`) -/

/-- `strings.Split` with a one-character separator: split at every
occurrence of the separator, keeping empty fields. -/
def splitOnChar (c : Char) : List Char → List (List Char)
  | [] => [[]]
  | x :: xs =>
    match splitOnChar c xs with
    | [] => [[x]]
    | cur :: rest => if x = c then [] :: cur :: rest else (x :: cur) :: rest

/-- `getProjectName`: take the first newline-separated line of the
manifest bytes and the element at index 1 of that line split on single
spaces (`strings.Split(strings.Split(s, "\n")[0], " ")[1]`). The Go
code indexes without a bounds check and aborts the process when the
first line contains no space; that failure is modelled as `none`. -/
def getProjectName (goMod : List Char) : Option (List Char) :=
  (splitOnChar ' ' ((splitOnChar '\n' goMod).headD []))[1]?

/-- A whitespace character inside a line. -/
def isWsChar (c : Char) : Bool := c = ' ' || c = '\t' || c = '\r'

/-- Split at every whitespace character, keeping empty fields. -/
def splitOnWs : List Char → List (List Char)
  | [] => [[]]
  | x :: xs =>
    match splitOnWs xs with
    | [] => [[x]]
    | cur :: rest => if isWsChar x then [] :: cur :: rest else (x :: cur) :: rest

/-- Modelled from the spec: the project identifier as the specification
words it — the second whitespace-delimited token of the manifest's
first line. -/
def specProjectName (goMod : List Char) : Option (List Char) :=
  ((splitOnWs ((splitOnChar '\n' goMod).headD [])).filter
    (fun fld => !fld.isEmpty))[1]?

theorem splitOnWs_eq_splitOnSpace : ∀ (l : List Char),
    (∀ c ∈ l, isWsChar c = true → c = ' ') → splitOnWs l = splitOnChar ' ' l
  | [], _ => rfl
  | x :: xs, h => by
      rw [splitOnWs, splitOnChar]
      rw [splitOnWs_eq_splitOnSpace xs
        (fun c hc hw => h c (List.mem_cons_of_mem _ hc) hw)]
      cases splitOnChar ' ' xs with
      | nil => rfl
      | cons cur rest =>
          dsimp only
          by_cases hx : x = ' '
          · subst hx
            rw [if_pos (by rfl), if_pos rfl]
          · have hw : ¬ isWsChar x = true := fun hw => hx (h x (by simp) hw)
            rw [if_neg hw, if_neg hx]

/-! ## Concrete example documents

Token-level models of the scaffolded files the two registration
functions are run against, plus shapes that trigger the edge cases. -/

/-- `apps := map[string]AppRunner{}` — the registry statement of the
scaffolded `internal/main.go`. -/
def appsRegistryStmt : Stmt :=
  .assign (.ident "apps") (.comp (.map (.ident "string") (.ident "AppRunner")) [])

/-- A scaffolded `internal/main.go`: one import declaration and a main
function holding the empty registry literal. -/
def internalMainFile : File :=
  ⟨[.imports none [⟨none, quote "log"⟩],
    .func none "main" [appsRegistryStmt]]⟩

/-- A scaffolded `<app>_main.go`: one import declaration and a run
function calling `core.New()` with zero arguments. -/
def appMainFile : File :=
  ⟨[.imports none [⟨none, quote "demo/internal/billing/core"⟩],
    .func none "Run"
      [.assign (.ident "app") (.call (.sel (.ident "core") "New") [])]]⟩

/-- A file with an import declaration but no `core.New` call and no
string-keyed map literal. -/
def noAnchorFile : File :=
  ⟨[.imports none [⟨none, quote "log"⟩],
    .func none "main" [.exprStmt (.call (.ident "foo") [])]]⟩

/-- A file with two sibling import declarations. -/
def twoImportsFile : File :=
  ⟨[.imports none [⟨none, quote "a"⟩],
    .imports none [⟨none, quote "b"⟩]]⟩

/-- A file whose only commented declaration holds no anchor. -/
def commentedFile : File :=
  ⟨[.imports none [⟨none, quote "log"⟩],
    .func (some "helper does nothing") "helper" [.exprStmt (.ident "x")],
    .func none "main" [appsRegistryStmt]]⟩

theorem catMap_get_split (g : α → List Tok) : ∀ (l : List α) (i : Nat) (x : α),
    l[i]? = some x → ∃ pre post, catMap g l = pre ++ g x ++ post
  | [], i, x, h => by simp at h
  | b :: l, 0, x, h => by
      obtain rfl : b = x := by simpa using h
      exact ⟨[], catMap g l, rfl⟩
  | b :: l, i+1, x, h => by
      obtain ⟨pre, post, he⟩ := catMap_get_split g l i x (by simpa using h)
      refine ⟨g b ++ pre, post, ?_⟩
      rw [catMap, he]
      simp [List.append_assoc]

/-- A concrete malformed input: a lone `import` keyword with no
parenthesis; the parser reports position 0 with a message. -/
theorem parse_lone_import :
    parse [Tok.kwImport] = .error ⟨0, "expected a declaration"⟩ := by
  rw [parse_eq, parseDeclsV_step Tok.kwImport [] rfl]
  rfl

/-! ## The claims -/

/-- C5: printing is idempotent after one normalization pass: for every
source text `s` that parses, printing the parse of the printed document
reproduces that printed document exactly, so
`print (parse (print (parse s))) = print (parse s)`. -/
theorem printing_idempotent (s : List Tok) (f0 : File) (h : parse s = .ok f0) :
    (parse (printFile f0)).map printFile = .ok (printFile f0) := by
  rw [parse_print]
  rfl

/-- Witness for `printing_idempotent` at a concrete document. -/
theorem printing_idempotent_witness :
    (parse (printFile internalMainFile)).map printFile
      = .ok (printFile internalMainFile) :=
  printing_idempotent (printFile internalMainFile) internalMainFile
    (parse_print internalMainFile)

/-- C6: malformed input makes the orchestration fail with a `ParseError`
carrying a position and a message, and perform no mutation and no file
write: both registration functions propagate the parse error, and the
file content on disk is byte-for-byte unchanged. -/
theorem parseError_no_write (s : List Tok) (e : ParseError) (p a m : String)
    (h : parse s = .error e) :
    addAppToInternalMain s p a = .error e ∧
    runAddApp s p a = s ∧
    addModuleToAppMain s p a m = .error e ∧
    runAddModule s p a m = s := by
  have hA : addAppToInternalMain s p a = .error e := by
    unfold addAppToInternalMain; rw [h]
  have hM : addModuleToAppMain s p a m = .error e := by
    unfold addModuleToAppMain; rw [h]
  exact ⟨hA, by unfold runAddApp; rw [hA], hM, by unfold runAddModule; rw [hM]⟩

/-- Witness for `parseError_no_write` at a concrete malformed input. -/
theorem parseError_no_write_witness :
    addAppToInternalMain [Tok.kwImport] "demo" "billing"
      = .error ⟨0, "expected a declaration"⟩ ∧
    runAddApp [Tok.kwImport] "demo" "billing" = [Tok.kwImport] ∧
    addModuleToAppMain [Tok.kwImport] "demo" "billing" "pay"
      = .error ⟨0, "expected a declaration"⟩ ∧
    runAddModule [Tok.kwImport] "demo" "billing" "pay" = [Tok.kwImport] :=
  parseError_no_write [Tok.kwImport] ⟨0, "expected a declaration"⟩
    "demo" "billing" "pay" parse_lone_import

/-- C3: appending an import to the located (first) import list yields,
after print and re-parse, a list of length `n + 1` whose first `n`
entries are the originals in order and whose last entry is the appended
spec; there is no uniqueness check, so a second identical run appends a
second identical entry. -/
theorem appendImport_count_order (s : List Tok) (f0 : File)
    (specs : List ImportSpec) (p a : String)
    (h : parse s = .ok f0) (hloc : firstImports f0.decls = some specs) :
    ∃ f1 f2 : File,
      parse (runAddApp s p a) = .ok f1 ∧
      firstImports f1.decls = some (specs ++ [appImportSpec p a]) ∧
      (specs ++ [appImportSpec p a]).length = specs.length + 1 ∧
      (specs ++ [appImportSpec p a]).take specs.length = specs ∧
      (specs ++ [appImportSpec p a])[specs.length]? = some (appImportSpec p a) ∧
      parse (runAddApp (runAddApp s p a) p a) = .ok f2 ∧
      firstImports f2.decls
        = some (specs ++ [appImportSpec p a, appImportSpec p a]) := by
  have hr1 : parse (runAddApp s p a) = .ok (inspectFile isStringMapComposite
      (appendEntry (appEntry a)) (addImportWalk (appImportSpec p a) f0)) := by
    rw [runAddApp_ok h]; exact parse_print _
  have hr2 : parse (runAddApp (runAddApp s p a) p a)
      = .ok (inspectFile isStringMapComposite (appendEntry (appEntry a))
          (addImportWalk (appImportSpec p a)
            (inspectFile isStringMapComposite (appendEntry (appEntry a))
              (addImportWalk (appImportSpec p a) f0)))) := by
    rw [runAddApp_ok hr1]; exact parse_print _
  have himp1 : firstImports (inspectFile isStringMapComposite
      (appendEntry (appEntry a)) (addImportWalk (appImportSpec p a) f0)).decls
      = some (specs ++ [appImportSpec p a]) := by
    rw [firstImports_inspectFile, firstImports_addImportWalk, hloc]; rfl
  have himp2 : firstImports (inspectFile isStringMapComposite
      (appendEntry (appEntry a)) (addImportWalk (appImportSpec p a)
        (inspectFile isStringMapComposite (appendEntry (appEntry a))
          (addImportWalk (appImportSpec p a) f0)))).decls
      = some (specs ++ [appImportSpec p a, appImportSpec p a]) := by
    rw [firstImports_inspectFile, firstImports_addImportWalk,
      firstImports_inspectFile, firstImports_addImportWalk, hloc]
    simp
  have hlen : (specs ++ [appImportSpec p a]).length = specs.length + 1 := by simp
  have htake : (specs ++ [appImportSpec p a]).take specs.length = specs := by simp
  exact ⟨inspectFile isStringMapComposite (appendEntry (appEntry a))
      (addImportWalk (appImportSpec p a) f0),
    inspectFile isStringMapComposite (appendEntry (appEntry a))
      (addImportWalk (appImportSpec p a)
        (inspectFile isStringMapComposite (appendEntry (appEntry a))
          (addImportWalk (appImportSpec p a) f0))),
    hr1, himp1, hlen, htake,
    List.getElem?_concat_length .., hr2, himp2⟩

/-- Witness for `appendImport_count_order` at the scaffolded
`internal/main.go`. -/
theorem appendImport_count_order_witness :
    ∃ f1 f2 : File,
      parse (runAddApp (printFile internalMainFile) "demo" "billing") = .ok f1 ∧
      firstImports f1.decls
        = some ([⟨none, quote "log"⟩] ++ [appImportSpec "demo" "billing"]) ∧
      ([(⟨none, quote "log"⟩ : ImportSpec)] ++ [appImportSpec "demo" "billing"]).length
        = [(⟨none, quote "log"⟩ : ImportSpec)].length + 1 ∧
      ([(⟨none, quote "log"⟩ : ImportSpec)] ++ [appImportSpec "demo" "billing"]).take
          [(⟨none, quote "log"⟩ : ImportSpec)].length = [⟨none, quote "log"⟩] ∧
      ([(⟨none, quote "log"⟩ : ImportSpec)] ++
          [appImportSpec "demo" "billing"])[[(⟨none, quote "log"⟩ : ImportSpec)].length]?
        = some (appImportSpec "demo" "billing") ∧
      parse (runAddApp (runAddApp (printFile internalMainFile) "demo" "billing")
        "demo" "billing") = .ok f2 ∧
      firstImports f2.decls
        = some ([⟨none, quote "log"⟩] ++
            [appImportSpec "demo" "billing", appImportSpec "demo" "billing"]) :=
  appendImport_count_order (printFile internalMainFile) internalMainFile
    [⟨none, quote "log"⟩] "demo" "billing" (parse_print internalMainFile) rfl

/-- C4: appending a call argument to the located `core.New` call
preserves the existing arguments in order and accumulates left to
right: one run takes the zero-argument call to one argument, a second
run yields two arguments in append order. -/
theorem appendCallArgument_order (s : List Tok) (f0 : File) (fn : Expr)
    (args : List Expr) (p a m1 m2 : String)
    (h : parse s = .ok f0)
    (hloc : locateFile isCoreNewCall f0 = some (.call fn args)) :
    ∃ f1 f2 : File,
      parse (runAddModule s p a m1) = .ok f1 ∧
      locateFile isCoreNewCall f1 = some (.call fn (args ++ [moduleArg m1])) ∧
      parse (runAddModule (runAddModule s p a m1) p a m2) = .ok f2 ∧
      locateFile isCoreNewCall f2
        = some (.call fn (args ++ [moduleArg m1, moduleArg m2])) := by
  have hr1 : parse (runAddModule s p a m1) = .ok (inspectFile isCoreNewCall
      (appendArg (moduleArg m1)) (addImportWalk (moduleImportSpec p a m1) f0)) := by
    rw [runAddModule_ok h]; exact parse_print _
  have hl1 : locateFile isCoreNewCall (inspectFile isCoreNewCall
      (appendArg (moduleArg m1)) (addImportWalk (moduleImportSpec p a m1) f0))
      = some (.call fn (args ++ [moduleArg m1])) := by
    rw [locateFile_inspect _ _ (locateE_inspect_core (moduleArg m1)),
      locateFile_addImportWalk, hloc]
    rfl
  have hr2 : parse (runAddModule (runAddModule s p a m1) p a m2)
      = .ok (inspectFile isCoreNewCall (appendArg (moduleArg m2))
          (addImportWalk (moduleImportSpec p a m2)
            (inspectFile isCoreNewCall (appendArg (moduleArg m1))
              (addImportWalk (moduleImportSpec p a m1) f0)))) := by
    rw [runAddModule_ok hr1]; exact parse_print _
  have hl2 : locateFile isCoreNewCall (inspectFile isCoreNewCall
      (appendArg (moduleArg m2)) (addImportWalk (moduleImportSpec p a m2)
        (inspectFile isCoreNewCall (appendArg (moduleArg m1))
          (addImportWalk (moduleImportSpec p a m1) f0))))
      = some (.call fn (args ++ [moduleArg m1, moduleArg m2])) := by
    rw [locateFile_inspect _ _ (locateE_inspect_core (moduleArg m2)),
      locateFile_addImportWalk, hl1]
    simp [appendArg]
  exact ⟨inspectFile isCoreNewCall (appendArg (moduleArg m1))
      (addImportWalk (moduleImportSpec p a m1) f0),
    inspectFile isCoreNewCall (appendArg (moduleArg m2))
      (addImportWalk (moduleImportSpec p a m2)
        (inspectFile isCoreNewCall (appendArg (moduleArg m1))
          (addImportWalk (moduleImportSpec p a m1) f0))),
    hr1, hl1, hr2, hl2⟩

/-- Witness for `appendCallArgument_order` at the scaffolded app main
file, starting from `core.New()` with zero arguments. -/
theorem appendCallArgument_order_witness :
    ∃ f1 f2 : File,
      parse (runAddModule (printFile appMainFile) "demo" "billing" "pay") = .ok f1 ∧
      locateFile isCoreNewCall f1
        = some (.call (.sel (.ident "core") "New") ([] ++ [moduleArg "pay"])) ∧
      parse (runAddModule (runAddModule (printFile appMainFile) "demo" "billing" "pay")
        "demo" "billing" "ship") = .ok f2 ∧
      locateFile isCoreNewCall f2
        = some (.call (.sel (.ident "core") "New")
            ([] ++ [moduleArg "pay", moduleArg "ship"])) :=
  appendCallArgument_order (printFile appMainFile) appMainFile
    (.sel (.ident "core") "New") [] "demo" "billing" "pay" "ship"
    (parse_print appMainFile) rfl

/-- C1 as stated is false: on a document containing no `core.New` call,
`addModuleToAppMain` does not fail with any error — there is no
`NotFoundError` anywhere in the code — and the target file is
overwritten with changed bytes, because the import append still
happened. -/
theorem missingAnchor_no_abort :
    addModuleToAppMain (printFile noAnchorFile) "demo" "billing" "pay"
      = .ok (printFile
          ⟨[.imports none [⟨none, quote "log"⟩, moduleImportSpec "demo" "billing" "pay"],
            .func none "main" [.exprStmt (.call (.ident "foo") [])]]⟩) ∧
    runAddModule (printFile noAnchorFile) "demo" "billing" "pay"
      ≠ printFile noAnchorFile := by
  constructor
  · rw [addModule_ok (parse_print noAnchorFile)]
    rfl
  · rw [runAddModule_ok (parse_print noAnchorFile)]
    decide

/-- C1 amended: a missing `core.New` anchor does not abort the run.
`addModuleToAppMain` still succeeds, the call-argument pass changes
nothing, and the file is rewritten with exactly the import append
applied. -/
theorem missingAnchor_import_only (s : List Tok) (f0 : File) (p a m : String)
    (h : parse s = .ok f0) (hnone : locateFile isCoreNewCall f0 = none) :
    addModuleToAppMain s p a m
      = .ok (printFile (addImportWalk (moduleImportSpec p a m) f0)) := by
  rw [addModule_ok h]
  rw [inspectFile_id _ _ _ (by rw [locateFile_addImportWalk]; exact hnone)]

/-- Witness for `missingAnchor_import_only`. -/
theorem missingAnchor_import_only_witness :
    addModuleToAppMain (printFile noAnchorFile) "demo" "billing" "pay"
      = .ok (printFile
          (addImportWalk (moduleImportSpec "demo" "billing" "pay") noAnchorFile)) :=
  missingAnchor_import_only (printFile noAnchorFile) noAnchorFile
    "demo" "billing" "pay" (parse_print noAnchorFile) rfl

/-- C2 is violated by the code: on a file with two sibling import
declarations, one run of `addAppToInternalMain` appends the new import
to BOTH declarations. Returning false from the `ast.Inspect` callback
only prunes the matched subtree; it does not stop the walk, so every
candidate after the first pre-order match is mutated as well. -/
theorem twoImports_both_mutated :
    parse (runAddApp (printFile twoImportsFile) "demo" "billing")
      = .ok ⟨[.imports none [⟨none, quote "a"⟩, appImportSpec "demo" "billing"],
              .imports none [⟨none, quote "b"⟩, appImportSpec "demo" "billing"]]⟩ := by
  rw [runAddApp_ok (parse_print twoImportsFile)]
  exact parse_print _

/-- The document produced by one registration run on the scaffolded
`internal/main.go`. -/
def internalMainAfterRun : File :=
  ⟨[.imports none [⟨none, quote "log"⟩, appImportSpec "demo" "billing"],
    .func none "main"
      [.assign (.ident "apps")
        (.comp (.map (.ident "string") (.ident "AppRunner")) [appEntry "billing"])]]⟩

/-- C7 as stated is false: one `create-app` run applies TWO structural
edits to the same parsed document — the import append and the
registry-entry append. On the scaffolded `internal/main.go` both the
first import list and the registry literal of the output differ from
the input. -/
theorem run_two_edits :
    parse (runAddApp (printFile internalMainFile) "demo" "billing")
      = .ok internalMainAfterRun ∧
    firstImports internalMainAfterRun.decls ≠ firstImports internalMainFile.decls ∧
    (locateFile isStringMapComposite internalMainAfterRun).map printE
      ≠ (locateFile isStringMapComposite internalMainFile).map printE := by
  refine ⟨?_, by decide, by decide⟩
  rw [runAddApp_ok (parse_print internalMainFile)]
  exact parse_print _

/-- C7 amended: every run applies exactly two mutator calls between
parse and print — the import append and the registry-entry append for
`addAppToInternalMain`, the import append and the call-argument append
for `addModuleToAppMain` — and the printed output is the parsed
document with precisely those two passes applied. -/
theorem run_edit_composition (s : List Tok) (f0 : File) (p a m : String)
    (h : parse s = .ok f0) :
    parse (runAddApp s p a) = .ok (inspectFile isStringMapComposite
        (appendEntry (appEntry a)) (addImportWalk (appImportSpec p a) f0)) ∧
    parse (runAddModule s p a m) = .ok (inspectFile isCoreNewCall
        (appendArg (moduleArg m)) (addImportWalk (moduleImportSpec p a m) f0)) := by
  constructor
  · rw [runAddApp_ok h]; exact parse_print _
  · rw [runAddModule_ok h]; exact parse_print _

/-- Witness for `run_edit_composition`. -/
theorem run_edit_composition_witness :
    parse (runAddApp (printFile internalMainFile) "demo" "billing")
      = .ok (inspectFile isStringMapComposite
          (appendEntry (appEntry "billing"))
          (addImportWalk (appImportSpec "demo" "billing") internalMainFile)) ∧
    parse (runAddModule (printFile internalMainFile) "demo" "billing" "pay")
      = .ok (inspectFile isCoreNewCall
          (appendArg (moduleArg "pay"))
          (addImportWalk (moduleImportSpec "demo" "billing" "pay") internalMainFile)) :=
  run_edit_composition (printFile internalMainFile) internalMainFile
    "demo" "billing" "pay" (parse_print internalMainFile)

/-- C10 as stated is false in its consequence: when the import anchor is
present but the registry anchor is missing, the file is still written,
and it then contains the appended import with no corresponding registry
entry anywhere. -/
theorem import_without_entry :
    parse (runAddApp (printFile noAnchorFile) "demo" "billing")
      = .ok ⟨[.imports none [⟨none, quote "log"⟩, appImportSpec "demo" "billing"],
              .func none "main" [.exprStmt (.call (.ident "foo") [])]]⟩ ∧
    locateFile isStringMapComposite
      ⟨[.imports none [⟨none, quote "log"⟩, appImportSpec "demo" "billing"],
        .func none "main" [.exprStmt (.call (.ident "foo") [])]]⟩ = none := by
  constructor
  · rw [runAddApp_ok (parse_print noAnchorFile)]
    exact parse_print _
  · rfl

/-- C10 amended: each run writes at most once — it produces a single
output content after both traversal passes — and when both anchors are
present, the written file contains both the appended import and the
appended registry entry; when the registry anchor is missing, only
the import edit is still written. -/
theorem write_once_both_edits (s : List Tok) (f0 : File) (p a : String)
    (specs : List ImportSpec) (ty : Ty) (ens : List (Option Expr × Expr))
    (h : parse s = .ok f0)
    (himp : firstImports f0.decls = some specs)
    (hcomp : locateFile isStringMapComposite f0 = some (.comp ty ens)) :
    ∃ f1 : File, parse (runAddApp s p a) = .ok f1 ∧
      firstImports f1.decls = some (specs ++ [appImportSpec p a]) ∧
      locateFile isStringMapComposite f1 = some (.comp ty (ens ++ [appEntry a])) := by
  have hr1 : parse (runAddApp s p a) = .ok (inspectFile isStringMapComposite
      (appendEntry (appEntry a)) (addImportWalk (appImportSpec p a) f0)) := by
    rw [runAddApp_ok h]; exact parse_print _
  have himp1 : firstImports (inspectFile isStringMapComposite
      (appendEntry (appEntry a)) (addImportWalk (appImportSpec p a) f0)).decls
      = some (specs ++ [appImportSpec p a]) := by
    rw [firstImports_inspectFile, firstImports_addImportWalk, himp]; rfl
  have hcomp1 : locateFile isStringMapComposite (inspectFile isStringMapComposite
      (appendEntry (appEntry a)) (addImportWalk (appImportSpec p a) f0))
      = some (.comp ty (ens ++ [appEntry a])) := by
    rw [locateFile_inspect _ _ (locateE_inspect_map (appEntry a)),
      locateFile_addImportWalk, hcomp]
    rfl
  exact ⟨inspectFile isStringMapComposite (appendEntry (appEntry a))
      (addImportWalk (appImportSpec p a) f0), hr1, himp1, hcomp1⟩

/-- Witness for `write_once_both_edits`. -/
theorem write_once_both_edits_witness :
    ∃ f1 : File,
      parse (runAddApp (printFile internalMainFile) "demo" "billing") = .ok f1 ∧
      firstImports f1.decls
        = some ([⟨none, quote "log"⟩] ++ [appImportSpec "demo" "billing"]) ∧
      locateFile isStringMapComposite f1
        = some (.comp (.map (.ident "string") (.ident "AppRunner"))
            ([] ++ [appEntry "billing"])) :=
  write_once_both_edits (printFile internalMainFile) internalMainFile
    "demo" "billing" [⟨none, quote "log"⟩]
    (.map (.ident "string") (.ident "AppRunner")) []
    (parse_print internalMainFile) rfl rfl

/-- C9: a line comment bound immediately above a declaration that the
run does not target is still immediately above that same, unchanged
declaration in the printed output: the declaration survives at its
index with its comment, and the output contains the comment token
directly followed by the declaration body. -/
theorem comment_preserved (s : List Tok) (f0 : File) (p a : String)
    (i : Nat) (c name : String) (body : List Stmt)
    (h : parse s = .ok f0)
    (hdecl : f0.decls[i]? = some (.func (some c) name body))
    (hnoanchor : locateDecl isStringMapComposite (.func (some c) name body) = none) :
    ∃ f1 : File, parse (runAddApp s p a) = .ok f1 ∧
      f1.decls[i]? = some (.func (some c) name body) ∧
      ∃ pre post, runAddApp s p a
        = pre ++ (Tok.comment c ::
            ([Tok.kwFunc, Tok.ident name, Tok.lparen, Tok.rparen, Tok.lbrace]
              ++ catMap printStmt body ++ [Tok.rbrace])) ++ post := by
  have hget : (inspectFile isStringMapComposite (appendEntry (appEntry a))
      (addImportWalk (appImportSpec p a) f0)).decls[i]?
      = some (.func (some c) name body) := by
    simp only [inspectFile, addImportWalk]
    rw [List.getElem?_map, List.getElem?_map, hdecl]
    show some (inspectDecl isStringMapComposite (appendEntry (appEntry a))
      (Decl.func (some c) name body)) = some (Decl.func (some c) name body)
    rw [inspectDecl_id _ _ _ hnoanchor]
  refine ⟨_, ?_, hget, ?_⟩
  · rw [runAddApp_ok h]; exact parse_print _
  · obtain ⟨pre, post, he⟩ := catMap_get_split printDecl _ i _ hget
    refine ⟨pre, post, ?_⟩
    rw [runAddApp_ok h]
    unfold printFile
    rw [he]
    simp [printDecl, printDocComment, List.append_assoc]

/-- Witness for `comment_preserved` at a document with a commented
helper declaration. -/
theorem comment_preserved_witness :
    ∃ f1 : File,
      parse (runAddApp (printFile commentedFile) "demo" "billing") = .ok f1 ∧
      f1.decls[1]?
        = some (.func (some "helper does nothing") "helper" [.exprStmt (.ident "x")]) ∧
      ∃ pre post, runAddApp (printFile commentedFile) "demo" "billing"
        = pre ++ (Tok.comment "helper does nothing" ::
            ([Tok.kwFunc, Tok.ident "helper", Tok.lparen, Tok.rparen, Tok.lbrace]
              ++ catMap printStmt [.exprStmt (.ident "x")] ++ [Tok.rbrace])) ++ post :=
  comment_preserved (printFile commentedFile) commentedFile "demo" "billing"
    1 "helper does nothing" "helper" [.exprStmt (.ident "x")]
    (parse_print commentedFile) rfl rfl

/-- C8 is violated by the code: `getProjectName` splits the first line
on single spaces, not on whitespace. With a tab after `module` the code
aborts (no element at index 1), and with a double space it returns the
empty field, while the second whitespace-delimited token is `demo` in
both cases. -/
theorem getProjectName_divergence :
    getProjectName ("module\tdemo\ngo 1.19".toList) = none ∧
    specProjectName ("module\tdemo\ngo 1.19".toList) = some ("demo".toList) ∧
    getProjectName ("module  demo".toList) = some [] ∧
    specProjectName ("module  demo".toList) = some ("demo".toList) := by
  refine ⟨by decide, by decide, by decide, by decide⟩

/-- C8 amended: the project identifier is the element at index 1 of the
first line split on single spaces (with empty fields kept, and absent —
the Go code aborts — when the first line has no space); on manifests
whose first line uses only single spaces between nonempty fields this
coincides with the second whitespace-delimited token. -/
theorem getProjectName_agrees (goMod : List Char)
    (h1 : ∀ c ∈ (splitOnChar '\n' goMod).headD [], isWsChar c = true → c = ' ')
    (h2 : ∀ fld ∈ splitOnChar ' ' ((splitOnChar '\n' goMod).headD []), fld ≠ []) :
    getProjectName goMod = specProjectName goMod := by
  unfold getProjectName specProjectName
  rw [splitOnWs_eq_splitOnSpace _ h1]
  rw [List.filter_eq_self.mpr ?hp]
  case hp =>
    intro fld hf
    cases fld with
    | nil => exact absurd rfl (h2 [] hf)
    | cons x xs => rfl

/-- Witness for `getProjectName_agrees` at a well-formed manifest. -/
theorem getProjectName_agrees_witness :
    getProjectName ("module demo\ngo 1.19".toList)
      = specProjectName ("module demo\ngo 1.19".toList) :=
  getProjectName_agrees ("module demo\ngo 1.19".toList) (by decide) (by decide)

end Grob
